import Mathlib

/-!
Shallow embedding of `src/dnskeytool/dnssec.py` (py-dnskey).

Modelling conventions:
* Python strings are `List Char`; string literals are written `"...".toList`.
* Python `datetime` values are the natural number whose decimal digits are the
  14-character `yyyymmddhhmmss` timestamp string.  Chronological order on
  `datetime` coincides with `Nat` order on this encoding, because the digit
  string has fixed length and lexicographically ordered fields.
* Python exceptions are modelled with `Except`: `ValueError`/`IndexError`
  raised while parsing are abstracted to the spec's error taxonomy `KeyErr`.
* `sorted` is modelled by `List.insertionSort` (a stable sort, like Python's).
* The filesystem is passed in explicitly: a directory is a list of entries
  (file name plus the list of lines of its text content); `subprocess.run`
  is modelled by a record holding the child's exit code and stream contents.
-/

deriving instance DecidableEq for Except

namespace Dnskeytool

/-- Python `str.split(sep)` for a one-character separator `sep`:
`"a+b".split("+") == ["a","b"]`, `"".split("+") == [""]`. -/
def splitCh (sep : Char) : List Char → List (List Char)
  | [] => [[]]
  | c :: cs =>
    if c = sep then [] :: splitCh sep cs
    else
      match splitCh sep cs with
      | [] => [[c]]
      | w :: ws => (c :: w) :: ws

/-- Helper for `pyWords`: `acc` is the current (reversed) in-progress word. -/
def pyWordsAux : List Char → List Char → List (List Char)
  | [], acc => if acc.isEmpty then [] else [acc.reverse]
  | c :: cs, acc =>
    if c.isWhitespace then
      if acc.isEmpty then pyWordsAux cs [] else acc.reverse :: pyWordsAux cs []
    else pyWordsAux cs (c :: acc)

/-- Python `str.split()` with no argument: split on runs of whitespace and
drop empty words. -/
def pyWords (cs : List Char) : List (List Char) := pyWordsAux cs []

/-- Python substring containment `needle in hay`. -/
def strContains : List Char → List Char → Bool
  | [], needle => needle.isEmpty
  | c :: t, needle => needle.isPrefixOf (c :: t) || strContains t needle

/-- Python `str.strip()`: remove leading and trailing whitespace. -/
def pyStrip (cs : List Char) : List Char :=
  ((cs.dropWhile Char.isWhitespace).reverse.dropWhile Char.isWhitespace).reverse

/-- Numeric value of the character `c` as a decimal digit (`'0'` ↦ 0, ...). -/
def charVal (c : Char) : Nat := c.toNat - 48

/-- Value of a decimal digit string. -/
def valDigits (ds : List Char) : Nat := ds.foldl (fun a c => a * 10 + charVal c) 0

/-- Tail of a CPython unsigned integer literal after its first digit: zero or
more further digits, with a single `'_'` allowed only between two digits. -/
def numTail : List Char → Bool
  | [] => true
  | c :: cs =>
    if c = '_' then
      match cs with
      | [] => false
      | d :: ds => d.isDigit && numTail ds
    else c.isDigit && numTail cs

/-- A CPython unsigned integer literal, `digit (["_"] digit)*`: one or more
ASCII decimal digits with single underscores allowed between digits. -/
def isIntLiteral : List Char → Bool
  | [] => false
  | c :: cs => c.isDigit && numTail cs

/-- Drop one optional leading `'+'` sign from an integer literal. -/
def pySignStrip (t : List Char) : List Char :=
  if t.head? = some '+' then t.drop 1 else t

/-- Python `int(s)` on the string forms whose value lies in `Nat`: optional
surrounding whitespace, an optional `'+'` sign, then ASCII decimal digits with
single underscores allowed between them (CPython's integer grammar).  Python
also accepts negative literals such as `"-5"` (whose value is outside this
model's `Nat` codomain) and non-ASCII decimal digits, which this model maps to
`none`; `none` is therefore not evidence that `int` raises, and every theorem
below uses `pyInt` only on the success side, where `pyInt cs = some n` agrees
with Python (`int(cs) == n`). -/
def pyInt (cs : List Char) : Option Nat :=
  if isIntLiteral (pySignStrip (pyStrip cs)) then
    some (valDigits ((pySignStrip (pyStrip cs)).filter (fun c => c != '_')))
  else none

/-- The decimal digit `n` (for `n ≤ 9`) as a character. -/
def digitCh (n : Nat) : Char := Char.ofNat (48 + n)

/-- Helper for `natRepr`: the first argument is recursion fuel, always at
least the number of digits of `n` when called with fuel `n`. -/
def natReprAux : Nat → Nat → List Char
  | 0, n => [digitCh n]
  | fuel + 1, n =>
    if n < 10 then [digitCh n]
    else natReprAux fuel (n / 10) ++ [digitCh (n % 10)]

/-- Decimal representation of a natural number, most significant digit first. -/
def natRepr (n : Nat) : List Char := natReprAux n n

/-- Python format spec `f"{n:wd}"`: right-justify in width `w`, pad with
spaces on the left (used by `KeyFile.sort_key`). -/
def padRJ (w : Nat) (n : Nat) : List Char :=
  List.replicate (w - (natRepr n).length) ' ' ++ natRepr n

/-- Python format spec `f"{n:0wd}"`: right-justify in width `w`, pad with
zeros on the left (used by `KeyFile.__str__`). -/
def padZ (w : Nat) (n : Nat) : List Char :=
  List.replicate (w - (natRepr n).length) '0' ++ natRepr n

/-- Python string comparison `a < b`: lexicographic on code points. -/
def lexLt : List Char → List Char → Bool
  | [], [] => false
  | [], _ :: _ => true
  | _ :: _, [] => false
  | c :: cs, d :: ds => if c < d then true else if d < c then false else lexLt cs ds

/-- Python string comparison `a <= b`: lexicographic on code points. -/
def lexLe : List Char → List Char → Bool
  | [], _ => true
  | _ :: _, [] => false
  | c :: cs, d :: ds => if c < d then true else if d < c then false else lexLe cs ds

/-- `pathlib.PurePath.stem`: the file name without its last suffix.  The
suffix starts at the last `'.'`, provided that dot is neither the first nor
the last character of the name. -/
def pyStem (cs : List Char) : List Char :=
  if (cs.reverse.takeWhile (fun c => c != '.')).length = 0 ∨
      (cs.reverse.takeWhile (fun c => c != '.')).length + 1 ≥ cs.reverse.length then cs
  else (cs.reverse.drop ((cs.reverse.takeWhile (fun c => c != '.')).length + 1)).reverse

/-- `pathlib.PurePath.with_suffix`: replace the last suffix of a name. -/
def withSuffix (n : List Char) (suf : List Char) : List Char := pyStem n ++ suf

/-- Python `str.splitlines()` for `'\n'`-separated text. -/
def pySplitlines (cs : List Char) : List (List Char) :=
  if cs = [] then []
  else if cs.getLast? = some '\n' then (splitCh '\n' cs).dropLast
  else splitCh '\n' cs

/-- Gregorian leap year test, as used by `datetime`. -/
def isLeap (y : Nat) : Bool := decide ((y % 4 = 0 ∧ y % 100 ≠ 0) ∨ y % 400 = 0)

/-- Number of days of month `m` in year `y`, as validated by `datetime`. -/
def daysInMonth (y m : Nat) : Nat :=
  if m = 2 then (if isLeap y then 29 else 28)
  else if m = 4 ∨ m = 6 ∨ m = 9 ∨ m = 11 then 30
  else 31

/-- `datetime.strptime(s, "%Y%m%d%H%M%S")` on a 14-character token: all
digits, with every calendar field in range; the result is the `Nat` encoding
of the timestamp (the numeric value of the digit string). -/
def strptime14 (s : List Char) : Option Nat :=
  if (s.length == 14) && s.all Char.isDigit then
    let y := valDigits (s.take 4)
    let mo := valDigits ((s.drop 4).take 2)
    let d := valDigits ((s.drop 6).take 2)
    let h := valDigits ((s.drop 8).take 2)
    let mi := valDigits ((s.drop 10).take 2)
    let sec := valDigits ((s.drop 12).take 2)
    if decide (1 ≤ y ∧ 1 ≤ mo ∧ mo ≤ 12 ∧ 1 ≤ d ∧ d ≤ daysInMonth y mo ∧
               h ≤ 23 ∧ mi ≤ 59 ∧ sec ≤ 59) then
      some (valDigits s)
    else none
  else none

/-- The spec's error taxonomy for `KeyFile` construction: `ValueError` and
`IndexError` raised while parsing the filename or a date token are
`parseError`, the two identity cross-check failures are `identityMismatch`,
an unknown key-purpose word is `unrecognizedType`. -/
inductive KeyErr where
  | parseError
  | identityMismatch
  | unrecognizedType
deriving DecidableEq, Repr

/-- Python list indexing `l[i]` for `i ≥ 0`; out of range raises
`IndexError`, abstracted to `parseError`. -/
def idx {α : Type} (l : List α) (i : Nat) : Except KeyErr α :=
  match l.get? i with
  | some x => Except.ok x
  | none => Except.error KeyErr.parseError

/-- `int(s)` where failure to parse raises `ValueError`, abstracted to
`parseError`. -/
def pyIntE (cs : List Char) : Except KeyErr Nat :=
  match pyInt cs with
  | some n => Except.ok n
  | none => Except.error KeyErr.parseError

/-- `date_part` (dnssec.py lines 8-13): take the third whitespace-delimited
word of the line, require it to be exactly 14 characters, and parse it with
`strptime`. -/
def date_part (line : List Char) : Except KeyErr Nat :=
  match idx (pyWords line) 2 with
  | Except.error e => Except.error e
  | Except.ok dt =>
    if dt.length ≠ 14 then Except.error KeyErr.parseError
    else
      match strptime14 dt with
      | some v => Except.ok v
      | none => Except.error KeyErr.parseError

/-- One parsed key file (`class KeyFile`), with the fields the scheduling
logic uses.  `name` is the filename stem; timestamps use the `Nat` datetime
encoding; an unset timestamp is `none`; `type` is `""`, `"ZSK"` or `"KSK"`. -/
structure KeyFile where
  name : List Char
  zone : List Char
  algo : Nat
  keyid : Nat
  type : List Char
  d_create : Option Nat := none
  d_publish : Option Nat := none
  d_active : Option Nat := none
  d_inactive : Option Nat := none
  d_delete : Option Nat := none
deriving DecidableEq, Repr

/-- The filename part of `KeyFile.__init__` (dnssec.py lines 29-32):
`ff = stem.split("+"); zone = ff[0][1:]; algo = int(ff[1]); keyid = int(ff[2])`. -/
def parseStem (stem : List Char) : Except KeyErr (List Char × Nat × Nat) :=
  match idx (splitCh '+' stem) 1 with
  | Except.error e => Except.error e
  | Except.ok aw =>
    match pyIntE aw with
    | Except.error e => Except.error e
    | Except.ok algo =>
      match idx (splitCh '+' stem) 2 with
      | Except.error e => Except.error e
      | Except.ok kw =>
        match pyIntE kw with
        | Except.error e => Except.error e
        | Except.ok keyid => Except.ok (((splitCh '+' stem).headD []).drop 1, algo, keyid)

/-- The key-purpose word of the descriptive comment: `zone-signing` names a
ZSK, `key-signing` a KSK, anything else raises
`ValueError("Unexpected key type word")` (dnssec.py lines 55-60). -/
def typeWord (w : List Char) : Except KeyErr (List Char) :=
  if w = ("zone-signing".toList) then Except.ok ("ZSK".toList)
  else if w = ("key-signing".toList) then Except.ok ("KSK".toList)
  else Except.error KeyErr.unrecognizedType

/-- The descriptive-comment branch of the line loop (dnssec.py lines 54-64):
`words[4]` names the purpose, `int(words[7][:-1])` must equal the filename
key tag and `words[-1]` the filename zone. -/
def processDescr (kf : KeyFile) (line : List Char) : Except KeyErr KeyFile :=
  match idx (pyWords line) 4 with
  | Except.error e => Except.error e
  | Except.ok w4 =>
    match typeWord w4 with
    | Except.error e => Except.error e
    | Except.ok ty =>
      match idx (pyWords line) 7 with
      | Except.error e => Except.error e
      | Except.ok w7 =>
        match pyIntE w7.dropLast with
        | Except.error e => Except.error e
        | Except.ok n =>
          if kf.keyid ≠ n then Except.error KeyErr.identityMismatch
          else
            match (pyWords line).getLast? with
            | none => Except.error KeyErr.parseError
            | some wl =>
              if kf.zone ≠ wl then Except.error KeyErr.identityMismatch
              else Except.ok { kf with type := ty }

/-- The body of the line loop of `KeyFile.__init__` (dnssec.py lines 40-64):
non-comment lines are skipped; the five date labels are tried in order and
overwrite the corresponding field; otherwise the descriptive
`"This is a ... key, keyid N for zone"` line is handled by `processDescr`. -/
def processLine (kf : KeyFile) (line : List Char) : Except KeyErr KeyFile :=
  if !(List.isPrefixOf ([';']) line) then Except.ok kf
  else if strContains line ("Created:".toList) then
    match date_part line with
    | Except.error e => Except.error e
    | Except.ok d => Except.ok { kf with d_create := some d }
  else if strContains line ("Publish:".toList) then
    match date_part line with
    | Except.error e => Except.error e
    | Except.ok d => Except.ok { kf with d_publish := some d }
  else if strContains line ("Activate:".toList) then
    match date_part line with
    | Except.error e => Except.error e
    | Except.ok d => Except.ok { kf with d_active := some d }
  else if strContains line ("Inactive:".toList) then
    match date_part line with
    | Except.error e => Except.error e
    | Except.ok d => Except.ok { kf with d_inactive := some d }
  else if strContains line ("Delete:".toList) then
    match date_part line with
    | Except.error e => Except.error e
    | Except.ok d => Except.ok { kf with d_delete := some d }
  else if strContains line ("This is a ".toList) && strContains line ("keyid".toList)
      && strContains line ("for".toList) then
    processDescr kf line
  else Except.ok kf

/-- The line loop of `KeyFile.__init__`, threading the record being built. -/
def foldLines (kf : KeyFile) : List (List Char) → Except KeyErr KeyFile
  | [] => Except.ok kf
  | l :: ls =>
    match processLine kf l with
    | Except.error e => Except.error e
    | Except.ok kf' => foldLines kf' ls

/-- `KeyFile.__init__` on stem `stem` and file content `lines`: parse the
filename fields, then fold the line loop over the content.  (The filesystem
metadata `owner`/`group`/`perm` is pass-through data the scheduling logic
never reads and is not modelled.) -/
def mkKeyFile (stem : List Char) (lines : List (List Char)) : Except KeyErr KeyFile :=
  match parseStem stem with
  | Except.error e => Except.error e
  | Except.ok (zone, algo, keyid) =>
    foldLines { name := stem, zone := zone, algo := algo, keyid := keyid, type := [] } lines

/-- `o` is a set timestamp that is at or before `ref`. -/
def optLe (o : Option Nat) (ref : Nat) : Bool :=
  match o with
  | some d => decide (d ≤ ref)
  | none => false

/-- `o` is a set timestamp that is strictly after `ref`. -/
def optGt (o : Option Nat) (ref : Nat) : Bool :=
  match o with
  | some d => decide (ref < d)
  | none => false

/-- `KeyFile.state` (dnssec.py lines 75-88) with the reference time passed
explicitly. -/
def state (kf : KeyFile) (ref : Nat) : String :=
  if optLe kf.d_delete ref then "DEL"
  else if optLe kf.d_inactive ref then "INAC"
  else if optLe kf.d_active ref then "ACT"
  else if optLe kf.d_publish ref then "PUB"
  else if optGt kf.d_create ref then "FUT"
  else ""

/-- The list `[d_publish, d_active, d_inactive, d_delete]` with unset entries
dropped, in that order (dnssec.py lines 94-95). -/
def assigned (kf : KeyFile) : List Nat :=
  [kf.d_publish, kf.d_active, kf.d_inactive, kf.d_delete].filterMap id

/-- Result of `KeyFile.next_change`: a datetime, Python `None`, or the
string `"Inconsistent Dates"`. -/
inductive NextChange where
  | changeAt (t : Nat)
  | noChange
  | inconsistent
deriving DecidableEq, Repr

/-- `KeyFile.next_change` (dnssec.py lines 90-99) with the reference time
passed explicitly: if the assigned dates are already in sorted order, the
first assigned date strictly after `ref` (or `None`); otherwise the
`"Inconsistent Dates"` sentinel. -/
def next_change (kf : KeyFile) (ref : Nat) : NextChange :=
  if List.insertionSort (· ≤ ·) (assigned kf) = assigned kf then
    match (assigned kf).find? (fun x => decide (ref < x)) with
    | some t => NextChange.changeAt t
    | none => NextChange.noChange
  else NextChange.inconsistent

/-- `KeyFile.__str__` (dnssec.py lines 69-70): `f"{zone}+{algo:03d}+{keyid:05d}"`. -/
def keyfileStr (kf : KeyFile) : List Char :=
  kf.zone ++ '+' :: padZ 3 kf.algo ++ '+' :: padZ 5 kf.keyid

/-- `KeyFile.sort_key` (dnssec.py lines 72-73):
`f"{zone}+{type}+{algo:3d}+{keyid:5d}"` (space padding). -/
def sort_key (kf : KeyFile) : List Char :=
  kf.zone ++ '+' :: (kf.type ++ '+' :: (padRJ 3 kf.algo ++ '+' :: padRJ 5 kf.keyid))

/-- Helper for `globMatch`: try to match the rest of the pattern (given as
the predicate `f`) against every suffix of the string — exactly what a `'*'`
may consume. -/
def starAux (f : List Char → Bool) : List Char → Bool
  | [] => f []
  | c :: cs => f (c :: cs) || starAux f cs

/-- `fnmatch`-style glob matching for the patterns this program builds:
`'*'` matches any (possibly empty) run of characters, `'?'` any single
character, every other pattern character only itself. -/
def globMatch : List Char → List Char → Bool
  | [], cs => cs.isEmpty
  | p :: ps, cs =>
    if p = '*' then starAux (globMatch ps) cs
    else
      match cs with
      | [] => false
      | c :: cs2 => (p == '?' || p == c) && globMatch ps cs2

/-- One directory entry: a file name and the lines of its text content. -/
structure DirEntry where
  fname : List Char
  content : List (List Char)
deriving Repr

/-- Whether a file of the given name exists in the directory. -/
def hasFile (dir : List DirEntry) (n : List Char) : Bool :=
  dir.any (fun e => e.fname == n)

/-- The glob pattern built by `DnsSec.list_keys`/`_iter_keyfiles`
(dnssec.py lines 125 and 134-135): `f"K{zone}+*+*.key"`, where a recursive
listing first replaces `zone` by `"*." + zone.lstrip(".")`. -/
def keyGlobPat (zone : List Char) (recursive : Bool) : List Char :=
  'K' :: (if recursive then '*' :: '.' :: (zone.dropWhile (fun c => c == '.')) else zone)
    ++ ("+*+*.key".toList)

/-- `DnsSec._iter_keyfiles` (dnssec.py lines 124-130): the glob matches,
split into those whose paired `.private` file exists (yielded) and the
warned-about names whose pair is missing (skipped with a warning printed to
stderr, returned here as the second component). -/
def iter_keyfiles (dir : List DirEntry) (pat : List Char) :
    List DirEntry × List (List Char) :=
  ((dir.filter (fun e => globMatch pat e.fname)).filter
      (fun e => hasFile dir (withSuffix e.fname (".private".toList))),
   ((dir.filter (fun e => globMatch pat e.fname)).filter
      (fun e => !(hasFile dir (withSuffix e.fname (".private".toList))))).map
     (fun e => e.fname))

/-- Construct a `KeyFile` for every yielded directory entry, stopping at the
first construction failure (which aborts the whole listing). -/
def mapKeyFiles : List DirEntry → Except KeyErr (List KeyFile)
  | [] => Except.ok []
  | e :: es =>
    match mkKeyFile (pyStem e.fname) e.content with
    | Except.error err => Except.error err
    | Except.ok kf =>
      match mapKeyFiles es with
      | Except.error err => Except.error err
      | Except.ok kfs => Except.ok (kf :: kfs)

/-- `DnsSec.list_keys` (dnssec.py lines 132-139): build the glob pattern,
construct a `KeyFile` for every yielded file (any construction failure aborts
the whole listing), and return the records sorted by `sort_key` together
with the warnings. -/
def list_keys (dir : List DirEntry) (zone : List Char) (recursive : Bool) :
    Except KeyErr (List KeyFile × List (List Char)) :=
  match mapKeyFiles (iter_keyfiles dir (keyGlobPat zone recursive)).1 with
  | Except.error err => Except.error err
  | Except.ok recs =>
    Except.ok (List.insertionSort (fun a b => lexLe (sort_key a) (sort_key b) = true) recs,
      (iter_keyfiles dir (keyGlobPat zone recursive)).2)

/-- Behaviour of one child process: its exit code and what it wrote to its
standard output and standard error streams. -/
structure ProcOutcome where
  returncode : Nat
  stdoutData : List Char
  stderrData : List Char

/-- The `subprocess.CompletedProcess` fields `_call` reads: a stream that
was not redirected to a pipe is `None`. -/
structure CompletedProcess where
  returncode : Nat
  stdout : Option (List Char)
  stderr : Option (List Char)

/-- `subprocess.run`: each stream is captured in the result only when the
corresponding `PIPE` argument was passed. -/
def pyRun (proc : ProcOutcome) (captureOut captureErr : Bool) : CompletedProcess :=
  { returncode := proc.returncode,
    stdout := if captureOut then some proc.stdoutData else none,
    stderr := if captureErr then some proc.stderrData else none }

/-- Python string interpolation of an optional string: `None` prints as
`"None"`. -/
def pyShowOptStr : Option (List Char) → List Char
  | some s => s
  | none => "None".toList

/-- `DnsSec._call` (dnssec.py lines 116-122): run the tool with
`stdout=subprocess.PIPE` (and stderr not redirected); on a non-zero exit
code raise `OSError(f"Error executing process: {returncode}\n{stderr}")`,
otherwise return the captured stdout, stripped and split into lines. -/
def callModel (proc : ProcOutcome) : Except (List Char) (List (List Char)) :=
  let ret := pyRun proc true false
  if ret.returncode ≠ 0 then
    Except.error (("Error executing process: ".toList) ++ natRepr ret.returncode
      ++ '\n' :: pyShowOptStr ret.stderr)
  else Except.ok (pySplitlines (pyStrip (ret.stdout.getD [])))

/-- The key is deleted at or before `t`. -/
def DelAt (kf : KeyFile) (t : Nat) : Prop := ∃ d, kf.d_delete = some d ∧ d ≤ t

/-- The key is inactivated at or before `t`. -/
def InacAt (kf : KeyFile) (t : Nat) : Prop := ∃ d, kf.d_inactive = some d ∧ d ≤ t

/-- The key is activated at or before `t`. -/
def ActAt (kf : KeyFile) (t : Nat) : Prop := ∃ d, kf.d_active = some d ∧ d ≤ t

/-- The key is published at or before `t`. -/
def PubAt (kf : KeyFile) (t : Nat) : Prop := ∃ d, kf.d_publish = some d ∧ d ≤ t

/-- The key's creation time is set and strictly after `t`. -/
def FutAt (kf : KeyFile) (t : Nat) : Prop := ∃ d, kf.d_create = some d ∧ t < d

/-- The worked example of the spec: publish 2024-01-01, activate 2024-02-01,
inactivate 2024-06-01, delete 2024-07-01. -/
def specExampleKey : KeyFile where
  name := ("Kexample.com+013+00042".toList)
  zone := ("example.com".toList)
  algo := 13
  keyid := 42
  type := ("ZSK".toList)
  d_publish := some 20240101000000
  d_active := some 20240201000000
  d_inactive := some 20240601000000
  d_delete := some 20240701000000

def selComment (l : List Char) : Bool := List.isPrefixOf ([';']) l

def selCreated (l : List Char) : Bool := selComment l && strContains l ("Created:".toList)

def selPublish (l : List Char) : Bool :=
  selComment l && !strContains l ("Created:".toList) && strContains l ("Publish:".toList)

def selActive (l : List Char) : Bool :=
  selComment l && !strContains l ("Created:".toList) && !strContains l ("Publish:".toList) &&
    strContains l ("Activate:".toList)

def selInactive (l : List Char) : Bool :=
  selComment l && !strContains l ("Created:".toList) && !strContains l ("Publish:".toList) &&
    !strContains l ("Activate:".toList) && strContains l ("Inactive:".toList)

def selDelete (l : List Char) : Bool :=
  selComment l && !strContains l ("Created:".toList) && !strContains l ("Publish:".toList) &&
    !strContains l ("Activate:".toList) && !strContains l ("Inactive:".toList) &&
    strContains l ("Delete:".toList)

def selDescr (l : List Char) : Bool :=
  selComment l && !strContains l ("Created:".toList) && !strContains l ("Publish:".toList) &&
    !strContains l ("Activate:".toList) && !strContains l ("Inactive:".toList) &&
    !strContains l ("Delete:".toList) &&
    (strContains l ("This is a ".toList) && strContains l ("keyid".toList) &&
      strContains l ("for".toList))

/-- The dates successfully parsed from the lines a given selector picks, in
file order. -/
def dateLinesOf (sel : List Char → Bool) (lines : List (List Char)) : List Nat :=
  lines.filterMap (fun l => if sel l then (date_part l).toOption else none)

/-- A file name following the key-file naming convention
`K<zone>+<3-digit-algorithm>+<5-digit-keyId>.key`, with a zone whose
characters sort above `'+'` (true of DNS names). -/
def ConvName (nm : List Char) : Prop :=
  ∃ z a k : List Char,
    nm = ('K' :: z ++ '+' :: (a ++ '+' :: k)) ++ ('.' :: ("key".toList)) ∧
    (∀ c ∈ z, '+' < c) ∧
    a.length = 3 ∧ (∀ c ∈ a, c.isDigit = true) ∧
    k.length = 5 ∧ (∀ c ∈ k, c.isDigit = true)

/-- The spec's presentation order: ascending by the tuple
(zone, keyType, algorithm, keyId). -/
def specKeyOrder (r1 r2 : KeyFile) : Prop :=
  lexLt r1.zone r2.zone = true ∨ (r1.zone = r2.zone ∧
    (lexLt r1.type r2.type = true ∨ (r1.type = r2.type ∧
      (r1.algo < r2.algo ∨ (r1.algo = r2.algo ∧ r1.keyid ≤ r2.keyid)))))

/-- A sample key directory: two paired keys and one `.key` file whose
`.private` half is missing. -/
def exDir : List DirEntry :=
  [⟨"Kexample.com+013+00042.key".toList, []⟩,
   ⟨"Kexample.com+013+00042.private".toList, []⟩,
   ⟨"Kexample.com+008+00007.key".toList, []⟩,
   ⟨"Kexample.com+008+00007.private".toList, []⟩,
   ⟨"Kexample.com+010+00009.key".toList, []⟩]

/-! ## Helper lemmas -/

theorem optLe_eq_true_iff (o : Option Nat) (t : Nat) :
    optLe o t = true ↔ ∃ d, o = some d ∧ d ≤ t := by
  cases o <;> simp [optLe]

theorem optGt_eq_true_iff (o : Option Nat) (t : Nat) :
    optGt o t = true ↔ ∃ d, o = some d ∧ t < d := by
  cases o <;> simp [optGt]

theorem insertionSort_nat_eq_self_iff (l : List Nat) :
    List.insertionSort (· ≤ ·) l = l ↔ l.Pairwise (· ≤ ·) := by
  constructor
  · intro h
    have hs := List.sorted_insertionSort (α := Nat) (· ≤ ·) l
    rwa [h] at hs
  · intro h
    exact List.Sorted.insertionSort_eq h

theorem find_first_gt_some (ref : Nat) :
    ∀ l : List Nat, l.Pairwise (· ≤ ·) → ∀ t, l.find? (fun x => decide (ref < x)) = some t →
      t ∈ l ∧ ref < t ∧ ∀ u ∈ l, ref < u → t ≤ u := by
  intro l
  induction l with
  | nil => intro _ t h; simp at h
  | cons a l ih =>
    intro hs t h
    rw [List.find?_cons] at h
    by_cases ha : ref < a
    · simp only [decide_eq_true ha] at h
      obtain rfl : a = t := by simpa using h
      refine ⟨List.mem_cons_self _ _, ha, ?_⟩
      intro u hu _
      rcases List.mem_cons.mp hu with rfl | hu
      · exact le_refl _
      · exact List.rel_of_pairwise_cons hs hu
    · simp only [decide_eq_false ha] at h
      obtain ⟨h1, h2, h3⟩ := ih (List.pairwise_cons.mp hs).2 t h
      refine ⟨List.mem_cons_of_mem _ h1, h2, ?_⟩
      intro u hu hru
      rcases List.mem_cons.mp hu with rfl | hu
      · exact absurd hru ha
      · exact h3 u hu hru

theorem find_first_gt_none (ref : Nat) (l : List Nat) :
    l.find? (fun x => decide (ref < x)) = none ↔ ∀ u ∈ l, u ≤ ref := by
  rw [List.find?_eq_none]
  constructor
  · intro h u hu
    have := h u hu
    simpa using this
  · intro h u hu
    simpa using h u hu

theorem processLine_fields (kf : KeyFile) (l : List Char) :
    processLine kf l =
      if selCreated l then
        (match date_part l with
          | Except.error e => Except.error e
          | Except.ok d => Except.ok { kf with d_create := some d })
      else if selPublish l then
        (match date_part l with
          | Except.error e => Except.error e
          | Except.ok d => Except.ok { kf with d_publish := some d })
      else if selActive l then
        (match date_part l with
          | Except.error e => Except.error e
          | Except.ok d => Except.ok { kf with d_active := some d })
      else if selInactive l then
        (match date_part l with
          | Except.error e => Except.error e
          | Except.ok d => Except.ok { kf with d_inactive := some d })
      else if selDelete l then
        (match date_part l with
          | Except.error e => Except.error e
          | Except.ok d => Except.ok { kf with d_delete := some d })
      else if selDescr l then processDescr kf l
      else Except.ok kf := by
  unfold processLine selDescr selDelete selInactive selActive selPublish selCreated selComment
  by_cases h1 : List.isPrefixOf ([';']) l <;>
  by_cases h2 : strContains l ("Created:".toList) <;>
  by_cases h3 : strContains l ("Publish:".toList) <;>
  by_cases h4 : strContains l ("Activate:".toList) <;>
  by_cases h5 : strContains l ("Inactive:".toList) <;>
  by_cases h6 : strContains l ("Delete:".toList) <;>
    simp_all

theorem typeWord_ok (w t : List Char) (h : typeWord w = Except.ok t) :
    t = ("ZSK".toList) ∨ t = ("KSK".toList) := by
  unfold typeWord at h
  split_ifs at h <;> simp_all

theorem processDescr_ok_shape (kf : KeyFile) (l : List Char) (kf' : KeyFile)
    (h : processDescr kf l = Except.ok kf') :
    ∃ t, kf' = { kf with type := t } ∧ (t = ("ZSK".toList) ∨ t = ("KSK".toList)) := by
  unfold processDescr at h
  rcases h4 : idx (pyWords l) 4 with e | w4 <;> rw [h4] at h <;> dsimp only at h
  · simp at h
  · rcases ht : typeWord w4 with e | ty <;> rw [ht] at h <;> dsimp only at h
    · simp at h
    · rcases h7 : idx (pyWords l) 7 with e | w7 <;> rw [h7] at h <;> dsimp only at h
      · simp at h
      · rcases hn : pyIntE w7.dropLast with e | n <;> rw [hn] at h <;> dsimp only at h
        · simp at h
        · by_cases hk : kf.keyid ≠ n
          · rw [if_pos hk] at h; simp at h
          · rw [if_neg hk] at h
            rcases hl : (pyWords l).getLast? with _ | wl <;> rw [hl] at h <;> dsimp only at h
            · simp at h
            · by_cases hz : kf.zone ≠ wl
              · rw [if_pos hz] at h; simp at h
              · rw [if_neg hz] at h
                have h2 : ({ kf with type := ty } : KeyFile) = kf' := by simpa using h
                exact ⟨ty, h2.symm, typeWord_ok w4 ty ht⟩

theorem getLast?_cons_or {α : Type} (a : α) (xs : List α) :
    (a :: xs).getLast? = xs.getLast?.or (some a) := by
  cases xs with
  | nil => rfl
  | cons b l =>
    rw [List.getLast?_cons_cons]
    have hs : (b :: l).getLast?.isSome = true := List.getLast?_isSome.mpr (by simp)
    obtain ⟨x, hx⟩ := Option.isSome_iff_exists.mp hs
    rw [hx]
    rfl

theorem processLine_sel_pos (kf : KeyFile) (l : List Char) (kf' : KeyFile)
    (h : processLine kf l = Except.ok kf') :
    (selCreated l = true → ∃ d, date_part l = Except.ok d ∧ kf' = { kf with d_create := some d }) ∧
    (selPublish l = true → ∃ d, date_part l = Except.ok d ∧ kf' = { kf with d_publish := some d }) ∧
    (selActive l = true → ∃ d, date_part l = Except.ok d ∧ kf' = { kf with d_active := some d }) ∧
    (selInactive l = true → ∃ d, date_part l = Except.ok d ∧ kf' = { kf with d_inactive := some d }) ∧
    (selDelete l = true → ∃ d, date_part l = Except.ok d ∧ kf' = { kf with d_delete := some d }) := by
  rw [processLine_fields] at h
  by_cases c1 : selCreated l
  · rw [if_pos c1] at h
    rcases hd : date_part l with e | d <;> rw [hd] at h <;> dsimp only at h
    · simp at h
    · have h2 : ({ kf with d_create := some d } : KeyFile) = kf' := by simpa using h
      refine ⟨fun _ => ⟨d, rfl, h2.symm⟩, ?_, ?_, ?_, ?_⟩ <;>
        (intro hx; exfalso;
         simp_all [selCreated, selPublish, selActive, selInactive, selDelete, selComment])
  · rw [if_neg c1] at h
    by_cases c2 : selPublish l
    · rw [if_pos c2] at h
      rcases hd : date_part l with e | d <;> rw [hd] at h <;> dsimp only at h
      · simp at h
      · have h2 : ({ kf with d_publish := some d } : KeyFile) = kf' := by simpa using h
        refine ⟨fun hx => absurd hx (by simp [c1]), fun _ => ⟨d, rfl, h2.symm⟩, ?_, ?_, ?_⟩ <;>
          (intro hx; exfalso;
           simp_all [selCreated, selPublish, selActive, selInactive, selDelete, selComment])
    · rw [if_neg c2] at h
      by_cases c3 : selActive l
      · rw [if_pos c3] at h
        rcases hd : date_part l with e | d <;> rw [hd] at h <;> dsimp only at h
        · simp at h
        · have h2 : ({ kf with d_active := some d } : KeyFile) = kf' := by simpa using h
          refine ⟨fun hx => absurd hx (by simp [c1]), fun hx => absurd hx (by simp [c2]),
            fun _ => ⟨d, rfl, h2.symm⟩, ?_, ?_⟩ <;>
            (intro hx; exfalso;
             simp_all [selCreated, selPublish, selActive, selInactive, selDelete, selComment])
      · rw [if_neg c3] at h
        by_cases c4 : selInactive l
        · rw [if_pos c4] at h
          rcases hd : date_part l with e | d <;> rw [hd] at h <;> dsimp only at h
          · simp at h
          · have h2 : ({ kf with d_inactive := some d } : KeyFile) = kf' := by simpa using h
            refine ⟨fun hx => absurd hx (by simp [c1]), fun hx => absurd hx (by simp [c2]),
              fun hx => absurd hx (by simp [c3]), fun _ => ⟨d, rfl, h2.symm⟩, ?_⟩
            intro hx; exfalso
            simp_all [selCreated, selPublish, selActive, selInactive, selDelete, selComment]
        · rw [if_neg c4] at h
          by_cases c5 : selDelete l
          · rw [if_pos c5] at h
            rcases hd : date_part l with e | d <;> rw [hd] at h <;> dsimp only at h
            · simp at h
            · have h2 : ({ kf with d_delete := some d } : KeyFile) = kf' := by simpa using h
              exact ⟨fun hx => absurd hx (by simp [c1]), fun hx => absurd hx (by simp [c2]),
                fun hx => absurd hx (by simp [c3]), fun hx => absurd hx (by simp [c4]),
                fun _ => ⟨d, rfl, h2.symm⟩⟩
          · rw [if_neg c5] at h
            exact ⟨fun hx => absurd hx (by simp [c1]), fun hx => absurd hx (by simp [c2]),
              fun hx => absurd hx (by simp [c3]), fun hx => absurd hx (by simp [c4]),
              fun hx => absurd hx (by simp [c5])⟩

theorem processLine_preserve (kf : KeyFile) (l : List Char) (kf' : KeyFile)
    (h : processLine kf l = Except.ok kf') :
    (selCreated l = false → kf'.d_create = kf.d_create) ∧
    (selPublish l = false → kf'.d_publish = kf.d_publish) ∧
    (selActive l = false → kf'.d_active = kf.d_active) ∧
    (selInactive l = false → kf'.d_inactive = kf.d_inactive) ∧
    (selDelete l = false → kf'.d_delete = kf.d_delete) ∧
    (selDescr l = false → kf'.type = kf.type) := by
  rw [processLine_fields] at h
  by_cases c1 : selCreated l
  · rw [if_pos c1] at h
    rcases hd : date_part l with e | d <;> rw [hd] at h <;> dsimp only at h
    · simp at h
    · have h2 : ({ kf with d_create := some d } : KeyFile) = kf' := by simpa using h
      rw [← h2]
      exact ⟨fun hx => absurd c1 (by simp [hx]), fun _ => rfl, fun _ => rfl, fun _ => rfl,
        fun _ => rfl, fun _ => rfl⟩
  · rw [if_neg c1] at h
    by_cases c2 : selPublish l
    · rw [if_pos c2] at h
      rcases hd : date_part l with e | d <;> rw [hd] at h <;> dsimp only at h
      · simp at h
      · have h2 : ({ kf with d_publish := some d } : KeyFile) = kf' := by simpa using h
        rw [← h2]
        exact ⟨fun _ => rfl, fun hx => absurd c2 (by simp [hx]), fun _ => rfl, fun _ => rfl,
          fun _ => rfl, fun _ => rfl⟩
    · rw [if_neg c2] at h
      by_cases c3 : selActive l
      · rw [if_pos c3] at h
        rcases hd : date_part l with e | d <;> rw [hd] at h <;> dsimp only at h
        · simp at h
        · have h2 : ({ kf with d_active := some d } : KeyFile) = kf' := by simpa using h
          rw [← h2]
          exact ⟨fun _ => rfl, fun _ => rfl, fun hx => absurd c3 (by simp [hx]), fun _ => rfl,
            fun _ => rfl, fun _ => rfl⟩
      · rw [if_neg c3] at h
        by_cases c4 : selInactive l
        · rw [if_pos c4] at h
          rcases hd : date_part l with e | d <;> rw [hd] at h <;> dsimp only at h
          · simp at h
          · have h2 : ({ kf with d_inactive := some d } : KeyFile) = kf' := by simpa using h
            rw [← h2]
            exact ⟨fun _ => rfl, fun _ => rfl, fun _ => rfl, fun hx => absurd c4 (by simp [hx]),
              fun _ => rfl, fun _ => rfl⟩
        · rw [if_neg c4] at h
          by_cases c5 : selDelete l
          · rw [if_pos c5] at h
            rcases hd : date_part l with e | d <;> rw [hd] at h <;> dsimp only at h
            · simp at h
            · have h2 : ({ kf with d_delete := some d } : KeyFile) = kf' := by simpa using h
              rw [← h2]
              exact ⟨fun _ => rfl, fun _ => rfl, fun _ => rfl, fun _ => rfl,
                fun hx => absurd c5 (by simp [hx]), fun _ => rfl⟩
          · rw [if_neg c5] at h
            by_cases c6 : selDescr l
            · rw [if_pos c6] at h
              obtain ⟨t, rfl, -⟩ := processDescr_ok_shape kf l kf' h
              exact ⟨fun _ => rfl, fun _ => rfl, fun _ => rfl, fun _ => rfl, fun _ => rfl,
                fun hx => absurd c6 (by simp [hx])⟩
            · rw [if_neg c6] at h
              have h2 : kf = kf' := by simpa using h
              rw [← h2]
              exact ⟨fun _ => rfl, fun _ => rfl, fun _ => rfl, fun _ => rfl, fun _ => rfl,
                fun _ => rfl⟩

theorem foldLines_dates : ∀ (lines : List (List Char)) (kf kf' : KeyFile),
    foldLines kf lines = Except.ok kf' →
    kf'.d_create = ((dateLinesOf selCreated lines).getLast?).or kf.d_create ∧
    kf'.d_publish = ((dateLinesOf selPublish lines).getLast?).or kf.d_publish ∧
    kf'.d_active = ((dateLinesOf selActive lines).getLast?).or kf.d_active ∧
    kf'.d_inactive = ((dateLinesOf selInactive lines).getLast?).or kf.d_inactive ∧
    kf'.d_delete = ((dateLinesOf selDelete lines).getLast?).or kf.d_delete := by
  intro lines
  induction lines with
  | nil =>
    intro kf kf' h
    have h2 : kf = kf' := by simpa [foldLines] using h
    simp [dateLinesOf, ← h2, Option.none_or]
  | cons l ls ih =>
    intro kf kf' h
    unfold foldLines at h
    rcases hp : processLine kf l with e | kf1 <;> rw [hp] at h <;> dsimp only at h
    · simp at h
    · obtain ⟨ihc, ihp, iha, ihi, ihd⟩ := ih kf1 kf' h
      obtain ⟨pc, pp, pa, pi, pd, -⟩ := processLine_preserve kf l kf1 hp
      obtain ⟨qc, qp, qa, qi, qd⟩ := processLine_sel_pos kf l kf1 hp
      refine ⟨?_, ?_, ?_, ?_, ?_⟩
      · by_cases hs : selCreated l
        · obtain ⟨d, hd, rfl⟩ := qc hs
          rw [ihc]
          have : dateLinesOf selCreated (l :: ls) = d :: dateLinesOf selCreated ls := by
            simp [dateLinesOf, hs, hd, Except.toOption]
          rw [this, getLast?_cons_or, Option.or_assoc]
          rfl
        · have hs' : selCreated l = false := by simpa using hs
          rw [ihc, pc hs']
          have : dateLinesOf selCreated (l :: ls) = dateLinesOf selCreated ls := by
            simp [dateLinesOf, hs']
          rw [this]
      · by_cases hs : selPublish l
        · obtain ⟨d, hd, rfl⟩ := qp hs
          rw [ihp]
          have : dateLinesOf selPublish (l :: ls) = d :: dateLinesOf selPublish ls := by
            simp [dateLinesOf, hs, hd, Except.toOption]
          rw [this, getLast?_cons_or, Option.or_assoc]
          rfl
        · have hs' : selPublish l = false := by simpa using hs
          rw [ihp, pp hs']
          have : dateLinesOf selPublish (l :: ls) = dateLinesOf selPublish ls := by
            simp [dateLinesOf, hs']
          rw [this]
      · by_cases hs : selActive l
        · obtain ⟨d, hd, rfl⟩ := qa hs
          rw [iha]
          have : dateLinesOf selActive (l :: ls) = d :: dateLinesOf selActive ls := by
            simp [dateLinesOf, hs, hd, Except.toOption]
          rw [this, getLast?_cons_or, Option.or_assoc]
          rfl
        · have hs' : selActive l = false := by simpa using hs
          rw [iha, pa hs']
          have : dateLinesOf selActive (l :: ls) = dateLinesOf selActive ls := by
            simp [dateLinesOf, hs']
          rw [this]
      · by_cases hs : selInactive l
        · obtain ⟨d, hd, rfl⟩ := qi hs
          rw [ihi]
          have : dateLinesOf selInactive (l :: ls) = d :: dateLinesOf selInactive ls := by
            simp [dateLinesOf, hs, hd, Except.toOption]
          rw [this, getLast?_cons_or, Option.or_assoc]
          rfl
        · have hs' : selInactive l = false := by simpa using hs
          rw [ihi, pi hs']
          have : dateLinesOf selInactive (l :: ls) = dateLinesOf selInactive ls := by
            simp [dateLinesOf, hs']
          rw [this]
      · by_cases hs : selDelete l
        · obtain ⟨d, hd, rfl⟩ := qd hs
          rw [ihd]
          have : dateLinesOf selDelete (l :: ls) = d :: dateLinesOf selDelete ls := by
            simp [dateLinesOf, hs, hd, Except.toOption]
          rw [this, getLast?_cons_or, Option.or_assoc]
          rfl
        · have hs' : selDelete l = false := by simpa using hs
          rw [ihd, pd hs']
          have : dateLinesOf selDelete (l :: ls) = dateLinesOf selDelete ls := by
            simp [dateLinesOf, hs']
          rw [this]

theorem processLine_type (kf : KeyFile) (l : List Char) (kf' : KeyFile)
    (h : processLine kf l = Except.ok kf') :
    kf'.type = kf.type ∨ kf'.type = ("ZSK".toList) ∨ kf'.type = ("KSK".toList) := by
  by_cases c6 : selDescr l
  · rw [processLine_fields] at h
    by_cases c1 : selCreated l
    · left
      exact ((processLine_preserve kf l kf' (by rw [processLine_fields]; exact h)).2.2.2.2.2
        (by simp_all [selDescr, selCreated, selComment]))
    · rw [if_neg c1] at h
      by_cases c2 : selPublish l
      · exact absurd c2 (by simp_all [selDescr, selPublish])
      · rw [if_neg c2] at h
        by_cases c3 : selActive l
        · exact absurd c3 (by simp_all [selDescr, selActive])
        · rw [if_neg c3] at h
          by_cases c4 : selInactive l
          · exact absurd c4 (by simp_all [selDescr, selInactive])
          · rw [if_neg c4] at h
            by_cases c5 : selDelete l
            · exact absurd c5 (by simp_all [selDescr, selDelete])
            · rw [if_neg c5, if_pos c6] at h
              obtain ⟨t, rfl, hty⟩ := processDescr_ok_shape kf l kf' h
              right
              simpa using hty
  · left
    exact (processLine_preserve kf l kf' h).2.2.2.2.2 (by simpa using c6)

theorem foldLines_type_inv : ∀ (lines : List (List Char)) (kf kf' : KeyFile),
    foldLines kf lines = Except.ok kf' →
    kf'.type = kf.type ∨ kf'.type = ("ZSK".toList) ∨ kf'.type = ("KSK".toList) := by
  intro lines
  induction lines with
  | nil =>
    intro kf kf' h
    have h2 : kf = kf' := by simpa [foldLines] using h
    simp [← h2]
  | cons l ls ih =>
    intro kf kf' h
    unfold foldLines at h
    rcases hp : processLine kf l with e | kf1 <;> rw [hp] at h <;> dsimp only at h
    · simp at h
    · rcases ih kf1 kf' h with h1 | h2
      · rcases processLine_type kf l kf1 hp with q | q
        · left; rw [h1, q]
        · right; rw [h1]; exact q
      · right; exact h2

theorem foldLines_type_nodescr : ∀ (lines : List (List Char)) (kf kf' : KeyFile),
    foldLines kf lines = Except.ok kf' → (∀ l ∈ lines, selDescr l = false) →
    kf'.type = kf.type := by
  intro lines
  induction lines with
  | nil =>
    intro kf kf' h _
    have h2 : kf = kf' := by simpa [foldLines] using h
    rw [← h2]
  | cons l ls ih =>
    intro kf kf' h hno
    unfold foldLines at h
    rcases hp : processLine kf l with e | kf1 <;> rw [hp] at h <;> dsimp only at h
    · simp at h
    · have h1 := ih kf1 kf' h (fun x hx => hno x (List.mem_cons_of_mem _ hx))
      have h2 := (processLine_preserve kf l kf1 hp).2.2.2.2.2 (hno l (List.mem_cons_self _ _))
      rw [h1, h2]

theorem processLine_descr_branch (kf : KeyFile) (l : List Char) (hsel : selDescr l = true) :
    processLine kf l = processDescr kf l := by
  have hparts := hsel
  simp only [selDescr, Bool.and_eq_true, Bool.not_eq_true'] at hparts
  obtain ⟨⟨⟨⟨⟨⟨hc, hnc⟩, hnp⟩, hna⟩, hni⟩, hnd⟩, hdesc⟩ := hparts
  have e1 : selCreated l = false := by unfold selCreated; rw [hnc]; simp
  have e2 : selPublish l = false := by unfold selPublish; rw [hnp]; simp
  have e3 : selActive l = false := by unfold selActive; rw [hna]; simp
  have e4 : selInactive l = false := by unfold selInactive; rw [hni]; simp
  have e5 : selDelete l = false := by unfold selDelete; rw [hnd]; simp
  rw [processLine_fields, if_neg (by simp [e1]), if_neg (by simp [e2]), if_neg (by simp [e3]),
    if_neg (by simp [e4]), if_neg (by simp [e5]), if_pos hsel]

theorem mkKeyFile_parts (stem : List Char) (lines : List (List Char)) (z : List Char) (a k : Nat)
    (hps : parseStem stem = Except.ok (z, a, k)) :
    mkKeyFile stem lines =
      foldLines { name := stem, zone := z, algo := a, keyid := k, type := [] } lines := by
  unfold mkKeyFile
  rw [hps]

theorem natReprAux_fuel : ∀ (n f1 f2 : Nat), n ≤ f1 → n ≤ f2 →
    natReprAux f1 n = natReprAux f2 n := by
  intro n
  induction n using Nat.strong_induction_on with
  | _ n ih =>
    intro f1 f2 h1 h2
    by_cases hn : n < 10
    · rcases f1 with _ | g1 <;> rcases f2 with _ | g2 <;>
        simp [natReprAux, hn]
    · have h10 : 10 ≤ n := by omega
      rcases f1 with _ | g1
      · omega
      · rcases f2 with _ | g2
        · omega
        · have hd : n / 10 < n := Nat.div_lt_self (by omega) (by omega)
          simp only [natReprAux, if_neg hn]
          rw [ih (n / 10) hd g1 g2 (by omega) (by omega)]

theorem natRepr_eq (n : Nat) :
    natRepr n = if n < 10 then [digitCh n] else natRepr (n / 10) ++ [digitCh (n % 10)] := by
  by_cases hn : n < 10
  · rw [if_pos hn]
    unfold natRepr
    rcases n with _ | m <;> simp [natReprAux, hn]
  · rw [if_neg hn]
    unfold natRepr
    rcases hf : n with _ | m
    · omega
    · rw [← hf]
      have : natReprAux n n = natReprAux (m + 1) n := by rw [hf]
      rw [this]
      simp only [natReprAux, if_neg hn]
      congr 1
      exact natReprAux_fuel (n / 10) m (n / 10) (by omega) (le_refl _)

theorem digitCh_toNat (n : Nat) (h : n < 10) : (digitCh n).toNat = 48 + n := by
  unfold digitCh
  interval_cases n <;> decide

theorem charVal_digitCh (n : Nat) (h : n < 10) : charVal (digitCh n) = n := by
  unfold charVal
  rw [digitCh_toNat n h]
  omega

theorem isDigit_toNat (c : Char) (h : c.isDigit = true) : 48 ≤ c.toNat ∧ c.toNat ≤ 57 := by
  simpa [Char.isDigit] using h

theorem digitCh_charVal (c : Char) (h : c.isDigit = true) : digitCh (charVal c) = c := by
  obtain ⟨h1, h2⟩ := isDigit_toNat c h
  unfold digitCh charVal
  rw [show 48 + (c.toNat - 48) = c.toNat by omega, Char.ofNat_toNat]

theorem charVal_lt_ten (c : Char) (h : c.isDigit = true) : charVal c < 10 := by
  obtain ⟨h1, h2⟩ := isDigit_toNat c h
  unfold charVal
  omega

theorem charVal_pos (c : Char) (hd : c.isDigit = true) (hc : c ≠ '0') : 1 ≤ charVal c := by
  obtain ⟨h1, h2⟩ := isDigit_toNat c hd
  unfold charVal
  rcases Nat.lt_or_ge 48 c.toNat with h | h
  · omega
  · exfalso
    refine hc ?_
    have h3 : c.toNat = 48 := by omega
    have h4 := congrArg Char.ofNat h3
    rwa [Char.ofNat_toNat] at h4

theorem isDigit_not_white (c : Char) (h : c.isDigit = true) : c.isWhitespace = false := by
  cases hw : c.isWhitespace
  · rfl
  · exfalso
    simp [Char.isWhitespace] at hw
    rcases hw with ((rfl | rfl) | rfl) | rfl <;> simp [Char.isDigit] at h

theorem dropWhile_white_digits (l : List Char) (h : ∀ c ∈ l, c.isDigit = true) :
    l.dropWhile Char.isWhitespace = l := by
  cases l with
  | nil => rfl
  | cons c t =>
    exact List.dropWhile_cons_of_neg (by
      simp [isDigit_not_white c (h c (List.mem_cons_self _ _))])

theorem pyStrip_digits (ds : List Char) (h : ∀ c ∈ ds, c.isDigit = true) :
    pyStrip ds = ds := by
  unfold pyStrip
  rw [dropWhile_white_digits ds h,
    dropWhile_white_digits ds.reverse (fun c hc => h c (List.mem_reverse.mp hc)),
    List.reverse_reverse]

theorem isDigit_ne_underscore (c : Char) (h : c.isDigit = true) : (c != '_') = true := by
  simp only [bne_iff_ne, ne_eq]
  intro hc'
  subst hc'
  exact absurd h (by decide)

theorem numTail_digits (t : List Char) (h : ∀ c ∈ t, c.isDigit = true) :
    numTail t = true := by
  induction t with
  | nil => rfl
  | cons c cs ih =>
    have hc : c.isDigit = true := h c (List.mem_cons_self _ _)
    have hcne : ¬(c = '_') := by
      intro hc'
      subst hc'
      exact absurd hc (by decide)
    rw [numTail.eq_def]
    dsimp only
    rw [if_neg hcne, hc, ih (fun d hd => h d (List.mem_cons_of_mem _ hd))]
    rfl

theorem isIntLiteral_digits (ds : List Char) (hne : ds ≠ [])
    (h : ∀ c ∈ ds, c.isDigit = true) : isIntLiteral ds = true := by
  cases ds with
  | nil => exact absurd rfl hne
  | cons c cs =>
    show (c.isDigit && numTail cs) = true
    rw [h c (List.mem_cons_self _ _),
      numTail_digits cs (fun d hd => h d (List.mem_cons_of_mem _ hd))]
    rfl

theorem pySignStrip_digits (ds : List Char) (h : ∀ c ∈ ds, c.isDigit = true) :
    pySignStrip ds = ds := by
  cases ds with
  | nil => rfl
  | cons c cs =>
    have hcp : ¬(c = '+') := by
      intro hc'
      subst hc'
      exact absurd (h '+' (List.mem_cons_self _ _)) (by decide)
    unfold pySignStrip
    rw [if_neg (by simp [hcp])]

theorem pyInt_digits (ds : List Char) (hne : ds ≠ []) (h : ∀ c ∈ ds, c.isDigit = true) :
    pyInt ds = some (valDigits ds) := by
  unfold pyInt
  rw [pyStrip_digits ds h, pySignStrip_digits ds h,
    if_pos (isIntLiteral_digits ds hne h),
    List.filter_eq_self.mpr (fun c hc => isDigit_ne_underscore c (h c hc))]

theorem valDigits_append_one (ds : List Char) (c : Char) :
    valDigits (ds ++ [c]) = valDigits ds * 10 + charVal c := by
  simp [valDigits, List.foldl_append]

theorem valDigits_foldl_acc : ∀ (t : List Char) (a : Nat),
    List.foldl (fun a c => a * 10 + charVal c) a t =
      a * 10 ^ t.length + List.foldl (fun a c => a * 10 + charVal c) 0 t := by
  intro t
  induction t with
  | nil => intro a; simp
  | cons c t ih =>
    intro a
    simp only [List.foldl_cons, List.length_cons]
    rw [ih (a * 10 + charVal c), ih (0 * 10 + charVal c)]
    rw [show (0 : Nat) * 10 + charVal c = charVal c by omega, pow_succ]
    ring

theorem valDigits_cons (c : Char) (t : List Char) :
    valDigits (c :: t) = charVal c * 10 ^ t.length + valDigits t := by
  show List.foldl _ 0 (c :: t) = _
  simp only [List.foldl_cons]
  rw [show (0 : Nat) * 10 + charVal c = charVal c by omega]
  exact valDigits_foldl_acc t (charVal c)

theorem valDigits_lt : ∀ (ds : List Char), (∀ c ∈ ds, c.isDigit = true) →
    valDigits ds < 10 ^ ds.length := by
  intro ds
  induction ds using List.reverseRecOn with
  | nil => intro _; simp [valDigits]
  | append_singleton ds c ih =>
    intro h
    rw [valDigits_append_one]
    have h1 := ih (fun x hx => h x (List.mem_append_left _ hx))
    have h2 := charVal_lt_ten c (h c (List.mem_append_right _ (by simp)))
    simp only [List.length_append, List.length_singleton, pow_succ]
    omega

theorem valDigits_head_pos (c : Char) (t : List Char) (hd : c.isDigit = true) (hc : c ≠ '0') :
    1 ≤ valDigits (c :: t) := by
  rw [valDigits_cons]
  have h1 := charVal_pos c hd hc
  have h2 : 1 ≤ 10 ^ t.length := Nat.one_le_pow _ _ (by omega)
  have h3 : 1 * 1 ≤ charVal c * 10 ^ t.length := Nat.mul_le_mul h1 h2
  omega

theorem natRepr_valDigits : ∀ (ds : List Char), (∀ c ∈ ds, c.isDigit = true) → ds ≠ [] →
    (∀ c t, ds = c :: t → c ≠ '0') → natRepr (valDigits ds) = ds := by
  intro ds
  induction ds using List.reverseRecOn with
  | nil => intro _ h _; exact absurd rfl h
  | append_singleton ds c ih =>
    intro hdig _ hhead
    have hch : c.isDigit = true := hdig c (List.mem_append_right _ (by simp))
    by_cases hne : ds = []
    · subst hne
      simp only [List.nil_append]
      rw [show valDigits [c] = charVal c by simp [valDigits]]
      rw [natRepr_eq, if_pos (charVal_lt_ten c hch), digitCh_charVal c hch]
    · obtain ⟨c0, t0, hds⟩ := List.exists_cons_of_ne_nil hne
      have hdig' : ∀ x ∈ ds, x.isDigit = true :=
        fun x hx => hdig x (List.mem_append_left _ hx)
      have hd0 : c0.isDigit = true := hdig' c0 (by rw [hds]; exact List.mem_cons_self _ _)
      have hc0 : c0 ≠ '0' := hhead c0 (t0 ++ [c]) (by rw [hds]; simp)
      have hpos : 1 ≤ valDigits ds := by
        rw [hds]
        exact valDigits_head_pos c0 t0 hd0 hc0
      rw [valDigits_append_one]
      have hu := charVal_lt_ten c hch
      have hge : ¬ (valDigits ds * 10 + charVal c < 10) := by omega
      rw [natRepr_eq, if_neg hge]
      have hdiv : (valDigits ds * 10 + charVal c) / 10 = valDigits ds := by omega
      have hmod : (valDigits ds * 10 + charVal c) % 10 = charVal c := by omega
      rw [hdiv, hmod]
      rw [ih hdig' hne (fun x t hx => hhead x (t ++ [c]) (by rw [hx]; simp)),
        digitCh_charVal c hch]

theorem valDigits_zeros_append : ∀ (j : Nat) (t : List Char),
    valDigits (List.replicate j '0' ++ t) = valDigits t := by
  intro j
  induction j with
  | zero => intro t; simp
  | succ j ih =>
    intro t
    rw [List.replicate_succ]
    show List.foldl _ 0 ('0' :: (List.replicate j '0' ++ t)) = _
    simp only [List.foldl_cons]
    rw [show (0 : Nat) * 10 + charVal '0' = 0 by decide]
    exact ih t

theorem dropWhile_head_not {α : Type} (p : α → Bool) :
    ∀ (l : List α) (c : α) (t : List α), List.dropWhile p l = c :: t → p c = false := by
  intro l
  induction l with
  | nil => intro c t h; simp at h
  | cons a l ih =>
    intro c t h
    by_cases hp : p a
    · rw [List.dropWhile_cons_of_pos hp] at h
      exact ih c t h
    · rw [List.dropWhile_cons_of_neg hp] at h
      obtain ⟨rfl, -⟩ : a = c ∧ l = t := by
        constructor <;> [exact (List.cons.injEq a l c t ▸ congrArg id h).1.symm ▸ rfl; skip]
        · exact (List.cons_eq_cons.mp h).2
      simpa using hp

/-- Zero-padding the decimal representation of the value of a digit string of
length `w` back to width `w` reproduces the string exactly. -/
theorem padZ_valDigits : ∀ (ds : List Char), ds ≠ [] → (∀ c ∈ ds, c.isDigit = true) →
    padZ ds.length (valDigits ds) = ds := by
  intro ds hne hdig
  have hsplit := List.takeWhile_append_dropWhile (p := fun c => c == '0') (l := ds)
  set j := (List.takeWhile (fun c => c == '0') ds).length with hj
  have htw : List.takeWhile (fun c => c == '0') ds = List.replicate j '0' := by
    rw [List.eq_replicate_iff]
    exact ⟨rfl, fun b hb => by simpa using List.mem_takeWhile_imp hb⟩
  rcases hdw : List.dropWhile (fun c => c == '0') ds with _ | ⟨c, t⟩
  · -- all zeros
    have hds : ds = List.replicate j '0' := by
      rw [← hsplit, htw, hdw, List.append_nil]
    have hval : valDigits ds = 0 := by
      rw [hds, show (List.replicate j '0' : List Char) = List.replicate j '0' ++ [] by simp,
        valDigits_zeros_append]
      rfl
    have hjpos : 1 ≤ j := by
      rcases Nat.eq_zero_or_pos j with h0 | h0
      · exfalso
        rw [hds, h0] at hne
        simp at hne
      · omega
    rw [hval, hds]
    unfold padZ
    rw [show natRepr 0 = ['0'] by decide]
    simp only [List.length_replicate, List.length_singleton]
    rw [show (['0'] : List Char) = List.replicate 1 '0' by rfl, ← List.replicate_add]
    congr 1
    omega
  · -- leading zeros then a nonzero head
    have hds : ds = List.replicate j '0' ++ (c :: t) := by rw [← hsplit, htw, hdw]
    have hc0 : c ≠ '0' := by
      have := dropWhile_head_not (fun c => c == '0') ds c t hdw
      simpa using this
    have hdig2 : ∀ x ∈ c :: t, x.isDigit = true := by
      intro x hx
      refine hdig x ?_
      rw [hds]
      exact List.mem_append_right _ hx
    have hval : valDigits ds = valDigits (c :: t) := by
      rw [hds, valDigits_zeros_append]
    have hnr : natRepr (valDigits (c :: t)) = c :: t :=
      natRepr_valDigits (c :: t) hdig2 (by simp)
        (fun x u hx => by
          obtain ⟨rfl, -⟩ := List.cons_eq_cons.mp hx
          exact hc0)
    rw [hval]
    unfold padZ
    rw [hnr, hds]
    congr 1
    simp

theorem splitCh_no_sep (sep : Char) : ∀ (xs : List Char), sep ∉ xs →
    splitCh sep xs = [xs] := by
  intro xs
  induction xs with
  | nil => intro _; rfl
  | cons c cs ih =>
    intro h
    rw [splitCh.eq_def]
    dsimp only
    rw [if_neg (fun hc => h (by rw [← hc]; exact List.mem_cons_self _ _))]
    rw [ih (fun hm => h (List.mem_cons_of_mem _ hm))]

theorem splitCh_append (sep : Char) : ∀ (xs ys : List Char), sep ∉ xs →
    splitCh sep (xs ++ sep :: ys) = xs :: splitCh sep ys := by
  intro xs
  induction xs with
  | nil =>
    intro ys _
    simp only [List.nil_append]
    rw [splitCh.eq_def]
    dsimp only
    rw [if_pos rfl]
  | cons c cs ih =>
    intro ys h
    simp only [List.cons_append]
    rw [splitCh.eq_def]
    dsimp only
    rw [if_neg (fun hc => h (by rw [← hc]; exact List.mem_cons_self _ _)),
      ih ys (fun hm => h (List.mem_cons_of_mem _ hm))]

theorem splitCh_stem (z a k : List Char) (hz : '+' ∉ z) (ha : '+' ∉ a) (hk : '+' ∉ k) :
    splitCh '+' ('K' :: z ++ '+' :: (a ++ '+' :: k)) = ('K' :: z) :: a :: [k] := by
  rw [show 'K' :: z ++ '+' :: (a ++ '+' :: k) = ('K' :: z) ++ '+' :: (a ++ '+' :: k) by simp]
  rw [splitCh_append '+' ('K' :: z) (a ++ '+' :: k) (by simpa using hz)]
  rw [splitCh_append '+' a k ha]
  rw [splitCh_no_sep '+' k hk]

theorem pyStem_append (xs ys : List Char) (hxs : xs ≠ []) (hys : ys ≠ []) (hd : '.' ∉ ys) :
    pyStem (xs ++ '.' :: ys) = xs := by
  unfold pyStem
  have hrev : (xs ++ '.' :: ys).reverse = ys.reverse ++ '.' :: xs.reverse := by simp
  rw [hrev]
  have htw : List.takeWhile (fun c => c != '.') (ys.reverse ++ '.' :: xs.reverse) =
      ys.reverse := by
    rw [List.takeWhile_append]
    rw [List.takeWhile_eq_self_iff.mpr (fun x hx => by
      simp only [bne_iff_ne, ne_eq, decide_eq_true_eq]
      exact fun hxe => hd (hxe ▸ List.mem_reverse.mp hx))]
    rw [if_pos rfl]
    rw [List.takeWhile_cons_of_neg (by simp)]
    simp
  rw [htw]
  rw [if_neg]
  · have hdrop : List.drop (ys.reverse.length + 1) (ys.reverse ++ '.' :: xs.reverse) =
        xs.reverse := by
      rw [show ys.reverse ++ '.' :: xs.reverse = (ys.reverse ++ ['.']) ++ xs.reverse by simp]
      exact List.drop_left' (by simp)
    rw [hdrop, List.reverse_reverse]
  · simp only [List.length_append, List.length_cons, List.length_reverse, not_or]
    constructor
    · simpa using hys
    · have h1 : 1 ≤ xs.length := by
        rcases xs with _ | _
        · exact absurd rfl hxs
        · simp
      omega

theorem globMatch_lit : ∀ (xs ps cs : List Char), (∀ c ∈ xs, c ≠ '*' ∧ c ≠ '?') →
    globMatch (xs ++ ps) (xs ++ cs) = globMatch ps cs := by
  intro xs
  induction xs with
  | nil => intro ps cs _; rfl
  | cons c t ih =>
    intro ps cs h
    obtain ⟨hc1, hc2⟩ := h c (List.mem_cons_self _ _)
    simp only [List.cons_append]
    rw [globMatch.eq_def]
    dsimp only
    rw [if_neg hc1]
    have : (c == '?' || c == c) = true := by simp
    rw [this]
    simp only [Bool.true_and]
    exact ih ps cs (fun x hx => h x (List.mem_cons_of_mem _ hx))

theorem starAux_of_suffix (f : List Char → Bool) : ∀ (xs cs : List Char),
    f cs = true → starAux f (xs ++ cs) = true := by
  intro xs
  induction xs with
  | nil =>
    intro cs h
    rcases cs with _ | ⟨c, t⟩
    · simpa [starAux] using h
    · simp only [List.nil_append]
      unfold starAux
      rw [h]
      simp
  | cons x t ih =>
    intro cs h
    simp only [List.cons_append]
    unfold starAux
    rw [ih cs h]
    simp

theorem globMatch_star (ps : List Char) (xs cs : List Char) (h : globMatch ps cs = true) :
    globMatch ('*' :: ps) (xs ++ cs) = true := by
  rw [globMatch.eq_def]
  dsimp only
  rw [if_pos rfl]
  exact starAux_of_suffix (globMatch ps) xs cs h

theorem lexLe_nil_false (c : Char) (cs : List Char) : lexLe (c :: cs) [] = false := rfl

theorem lexLe_cons_eq (c d : Char) (cs ds : List Char) :
    lexLe (c :: cs) (d :: ds) =
      if c < d then true else if d < c then false else lexLe cs ds := by
  rw [lexLe.eq_def]

theorem lexLt_cons_eq (c d : Char) (cs ds : List Char) :
    lexLt (c :: cs) (d :: ds) =
      if c < d then true else if d < c then false else lexLt cs ds := by
  rw [lexLt.eq_def]

theorem lexLe_cons_iff (c d : Char) (cs ds : List Char) :
    lexLe (c :: cs) (d :: ds) = true ↔ (c < d ∨ (c = d ∧ lexLe cs ds = true)) := by
  rw [lexLe_cons_eq]
  rcases lt_trichotomy c d with h | h | h
  · rw [if_pos h]
    simp [h]
  · subst h
    rw [if_neg (lt_irrefl c), if_neg (lt_irrefl c)]
    simp [lt_irrefl c]
  · rw [if_neg (lt_asymm h), if_pos h]
    simp [lt_asymm h, ne_of_gt h]

theorem lexLt_cons_iff (c d : Char) (cs ds : List Char) :
    lexLt (c :: cs) (d :: ds) = true ↔ (c < d ∨ (c = d ∧ lexLt cs ds = true)) := by
  rw [lexLt_cons_eq]
  rcases lt_trichotomy c d with h | h | h
  · rw [if_pos h]
    simp [h]
  · subst h
    rw [if_neg (lt_irrefl c), if_neg (lt_irrefl c)]
    simp [lt_irrefl c]
  · rw [if_neg (lt_asymm h), if_pos h]
    simp [lt_asymm h, ne_of_gt h]

theorem lexLe_refl : ∀ a : List Char, lexLe a a = true := by
  intro a
  induction a with
  | nil => rfl
  | cons c t ih => exact (lexLe_cons_iff c c t t).mpr (Or.inr ⟨rfl, ih⟩)

theorem lexLt_irrefl : ∀ a : List Char, lexLt a a = false := by
  intro a
  induction a with
  | nil => rfl
  | cons c t ih =>
    cases h : lexLt (c :: t) (c :: t)
    · rfl
    · rcases (lexLt_cons_iff c c t t).mp h with h1 | ⟨-, h1⟩
      · exact absurd h1 (lt_irrefl c)
      · rw [ih] at h1
        exact absurd h1 (by simp)

theorem lexLe_total : ∀ a b : List Char, lexLe a b = true ∨ lexLe b a = true := by
  intro a
  induction a with
  | nil => intro b; left; rfl
  | cons c t ih =>
    intro b
    rcases b with _ | ⟨d, u⟩
    · right; rfl
    · rcases lt_trichotomy c d with h | h | h
      · exact Or.inl ((lexLe_cons_iff _ _ _ _).mpr (Or.inl h))
      · subst h
        rcases ih u with h1 | h1
        · exact Or.inl ((lexLe_cons_iff _ _ _ _).mpr (Or.inr ⟨rfl, h1⟩))
        · exact Or.inr ((lexLe_cons_iff _ _ _ _).mpr (Or.inr ⟨rfl, h1⟩))
      · exact Or.inr ((lexLe_cons_iff _ _ _ _).mpr (Or.inl h))

theorem lexLe_trans : ∀ a b c : List Char, lexLe a b = true → lexLe b c = true →
    lexLe a c = true := by
  intro a
  induction a with
  | nil => intro b c _ _; rfl
  | cons x xs ih =>
    intro b c hab hbc
    rcases b with _ | ⟨y, ys⟩
    · exact absurd hab (by simp [lexLe_nil_false])
    · rcases c with _ | ⟨z, zs⟩
      · exact absurd hbc (by simp [lexLe_nil_false])
      · rcases (lexLe_cons_iff _ _ _ _).mp hab with h1 | ⟨rfl, h1⟩ <;>
          rcases (lexLe_cons_iff _ _ _ _).mp hbc with h2 | ⟨rfl, h2⟩
        · exact (lexLe_cons_iff _ _ _ _).mpr (Or.inl (lt_trans h1 h2))
        · exact (lexLe_cons_iff _ _ _ _).mpr (Or.inl h1)
        · exact (lexLe_cons_iff _ _ _ _).mpr (Or.inl h2)
        · exact (lexLe_cons_iff _ _ _ _).mpr (Or.inr ⟨rfl, ih ys zs h1 h2⟩)

theorem lexLt_not_le : ∀ a b : List Char, lexLt a b = true → lexLe b a = false := by
  intro a
  induction a with
  | nil =>
    intro b h
    rcases b with _ | ⟨d, u⟩
    · simp [lexLt] at h
    · rfl
  | cons c t ih =>
    intro b h
    rcases b with _ | ⟨d, u⟩
    · simp [lexLt] at h
    · cases hle : lexLe (d :: u) (c :: t)
      · rfl
      · exfalso
        rcases (lexLt_cons_iff _ _ _ _).mp h with h1 | ⟨rfl, h1⟩ <;>
          rcases (lexLe_cons_iff _ _ _ _).mp hle with h2 | ⟨he, h2⟩
        · exact lt_asymm h1 h2
        · exact absurd (he ▸ h1) (lt_irrefl d)
        · exact absurd h2 (lt_irrefl c)
        · rw [ih u h1] at h2
          exact absurd h2 (by simp)

theorem lexLe_of_lt : ∀ a b : List Char, lexLt a b = true → lexLe a b = true := by
  intro a
  induction a with
  | nil => intro b _; rfl
  | cons c t ih =>
    intro b h
    rcases b with _ | ⟨d, u⟩
    · simp [lexLt] at h
    · rcases (lexLt_cons_iff _ _ _ _).mp h with h1 | ⟨rfl, h1⟩
      · exact (lexLe_cons_iff _ _ _ _).mpr (Or.inl h1)
      · exact (lexLe_cons_iff _ _ _ _).mpr (Or.inr ⟨rfl, ih u h1⟩)

theorem lexLe_iff : ∀ a b : List Char, lexLe a b = true ↔ (lexLt a b = true ∨ a = b) := by
  intro a
  induction a with
  | nil =>
    intro b
    rcases b with _ | ⟨d, u⟩
    · simp [lexLe, lexLt]
    · simp [lexLe, lexLt]
  | cons c t ih =>
    intro b
    rcases b with _ | ⟨d, u⟩
    · simp [lexLe_nil_false, lexLt]
    · rw [lexLe_cons_iff, lexLt_cons_iff]
      constructor
      · rintro (h | ⟨rfl, h⟩)
        · exact Or.inl (Or.inl h)
        · rcases (ih u).mp h with h1 | rfl
          · exact Or.inl (Or.inr ⟨rfl, h1⟩)
          · exact Or.inr rfl
      · rintro ((h | ⟨rfl, h⟩) | he)
        · exact Or.inl h
        · exact Or.inr ⟨rfl, (ih u).mpr (Or.inl h)⟩
        · obtain ⟨rfl, rfl⟩ := List.cons_eq_cons.mp he
          exact Or.inr ⟨rfl, (ih t).mpr (Or.inr rfl)⟩

theorem lexLt_append_iff : ∀ (x y u v : List Char), x.length = y.length →
    (lexLt (x ++ u) (y ++ v) = true ↔
      (lexLt x y = true ∨ (x = y ∧ lexLt u v = true))) := by
  intro x
  induction x with
  | nil =>
    intro y u v hl
    have : y = [] := by
      rcases y with _ | _
      · rfl
      · simp at hl
    subst this
    simp [lexLt]
  | cons c t ih =>
    intro y u v hl
    rcases y with _ | ⟨d, w⟩
    · simp at hl
    · simp only [List.cons_append]
      rw [lexLt_cons_iff, lexLt_cons_iff, ih w u v (by simpa using hl)]
      constructor
      · rintro (h | ⟨rfl, h1 | ⟨rfl, h1⟩⟩)
        · exact Or.inl (Or.inl h)
        · exact Or.inl (Or.inr ⟨rfl, h1⟩)
        · exact Or.inr ⟨rfl, h1⟩
      · rintro ((h | ⟨rfl, h⟩) | ⟨he, h⟩)
        · exact Or.inl h
        · exact Or.inr ⟨rfl, Or.inl h⟩
        · obtain ⟨rfl, rfl⟩ := List.cons_eq_cons.mp he
          exact Or.inr ⟨rfl, Or.inr ⟨rfl, h⟩⟩

theorem lexLe_append_iff : ∀ (x y u v : List Char), x.length = y.length →
    (lexLe (x ++ u) (y ++ v) = true ↔
      (lexLt x y = true ∨ (x = y ∧ lexLe u v = true))) := by
  intro x
  induction x with
  | nil =>
    intro y u v hl
    have : y = [] := by
      rcases y with _ | _
      · rfl
      · simp at hl
    subst this
    simp [lexLt]
  | cons c t ih =>
    intro y u v hl
    rcases y with _ | ⟨d, w⟩
    · simp at hl
    · simp only [List.cons_append]
      rw [lexLe_cons_iff, lexLt_cons_iff, ih w u v (by simpa using hl)]
      constructor
      · rintro (h | ⟨rfl, h1 | ⟨rfl, h1⟩⟩)
        · exact Or.inl (Or.inl h)
        · exact Or.inl (Or.inr ⟨rfl, h1⟩)
        · exact Or.inr ⟨rfl, h1⟩
      · rintro ((h | ⟨rfl, h⟩) | ⟨he, h⟩)
        · exact Or.inl h
        · exact Or.inr ⟨rfl, Or.inl h⟩
        · obtain ⟨rfl, rfl⟩ := List.cons_eq_cons.mp he
          exact Or.inr ⟨rfl, Or.inr ⟨rfl, h⟩⟩

theorem lexLe_sep_iff : ∀ (x y u v : List Char), (∀ c ∈ x, '+' < c) → (∀ c ∈ y, '+' < c) →
    (lexLe (x ++ '+' :: u) (y ++ '+' :: v) = true ↔
      (lexLt x y = true ∨ (x = y ∧ lexLe u v = true))) := by
  intro x
  induction x with
  | nil =>
    intro y u v _ hy
    rcases y with _ | ⟨d, w⟩
    · simp only [List.nil_append]
      rw [lexLe_cons_iff]
      simp [lexLt, lt_irrefl]
    · simp only [List.nil_append, List.cons_append]
      rw [lexLe_cons_iff]
      have hd := hy d (List.mem_cons_self _ _)
      simp [lexLt, hd, ne_of_gt hd]
  | cons c t ih =>
    intro y u v hx hy
    rcases y with _ | ⟨d, w⟩
    · simp only [List.cons_append, List.nil_append]
      have hc := hx c (List.mem_cons_self _ _)
      rw [lexLe_cons_iff]
      simp [lexLt, lt_asymm hc, ne_of_gt hc]
    · simp only [List.cons_append]
      rw [lexLe_cons_iff, lexLt_cons_iff,
        ih w u v (fun a ha => hx a (List.mem_cons_of_mem _ ha))
          (fun a ha => hy a (List.mem_cons_of_mem _ ha))]
      constructor
      · rintro (h | ⟨rfl, h1 | ⟨rfl, h1⟩⟩)
        · exact Or.inl (Or.inl h)
        · exact Or.inl (Or.inr ⟨rfl, h1⟩)
        · exact Or.inr ⟨rfl, h1⟩
      · rintro ((h | ⟨rfl, h⟩) | ⟨he, h⟩)
        · exact Or.inl h
        · exact Or.inr ⟨rfl, Or.inl h⟩
        · obtain ⟨rfl, rfl⟩ := List.cons_eq_cons.mp he
          exact Or.inr ⟨rfl, Or.inr ⟨rfl, h⟩⟩

theorem digitCh_isDigit (n : Nat) (h : n < 10) : (digitCh n).isDigit = true := by
  unfold digitCh
  interval_cases n <;> decide

theorem digitCh_lt (m n : Nat) (hm : m < 10) (hn : n < 10) (h : m < n) :
    digitCh m < digitCh n := by
  have hlt : (digitCh m).toNat < (digitCh n).toNat := by
    rw [digitCh_toNat m hm, digitCh_toNat n hn]
    omega
  exact hlt

theorem space_lt_digit (c : Char) (h : c.isDigit = true) : ' ' < c := by
  have h1 := isDigit_toNat c h
  have hlt : (' ').toNat < c.toNat := by
    rw [show (' ').toNat = 32 from rfl]
    omega
  exact hlt

theorem natRepr_ne_nil (n : Nat) : natRepr n ≠ [] := by
  rw [natRepr_eq]
  split <;> simp

theorem natRepr_digits : ∀ n : Nat, ∀ c ∈ natRepr n, c.isDigit = true := by
  intro n
  induction n using Nat.strong_induction_on with
  | _ n ih =>
    intro c hc
    rw [natRepr_eq] at hc
    by_cases h : n < 10
    · rw [if_pos h] at hc
      obtain rfl : c = digitCh n := by simpa using hc
      exact digitCh_isDigit n h
    · rw [if_neg h] at hc
      rcases List.mem_append.mp hc with h1 | h1
      · exact ih (n / 10) (Nat.div_lt_self (by omega) (by omega)) c h1
      · obtain rfl : c = digitCh (n % 10) := by simpa using h1
        exact digitCh_isDigit _ (Nat.mod_lt _ (by omega))

theorem natRepr_lt_pow : ∀ n : Nat, n < 10 ^ (natRepr n).length := by
  intro n
  induction n using Nat.strong_induction_on with
  | _ n ih =>
    rw [natRepr_eq]
    by_cases h : n < 10
    · rw [if_pos h]
      simpa using h
    · rw [if_neg h]
      have h1 := ih (n / 10) (Nat.div_lt_self (by omega) (by omega))
      simp only [List.length_append, List.length_singleton, pow_succ]
      omega

theorem natRepr_pow_le : ∀ n : Nat, 2 ≤ (natRepr n).length →
    10 ^ ((natRepr n).length - 1) ≤ n := by
  intro n
  induction n using Nat.strong_induction_on with
  | _ n ih =>
    intro hlen
    rw [natRepr_eq] at hlen ⊢
    by_cases h : n < 10
    · rw [if_pos h] at hlen
      simp at hlen
    · rw [if_neg h]
      have hd : n / 10 < n := Nat.div_lt_self (by omega) (by omega)
      simp only [List.length_append, List.length_singleton]
      have hl1 : 1 ≤ (natRepr (n / 10)).length := by
        have := natRepr_ne_nil (n / 10)
        rcases hn : natRepr (n / 10) with _ | _
        · exact absurd hn this
        · simp
      have hstep : 10 ^ ((natRepr (n / 10)).length - 1) ≤ n / 10 := by
        by_cases h2 : 2 ≤ (natRepr (n / 10)).length
        · exact ih (n / 10) hd h2
        · have : (natRepr (n / 10)).length = 1 := by omega
          rw [this]
          simpa using Nat.one_le_div_iff (by omega) |>.mpr (by omega)
      have hpow : 10 ^ ((natRepr (n / 10)).length + 1 - 1) =
          10 * 10 ^ ((natRepr (n / 10)).length - 1) := by
        rw [show (natRepr (n / 10)).length + 1 - 1 = ((natRepr (n / 10)).length - 1) + 1
          by omega, pow_succ]
        ring
      rw [hpow]
      have := Nat.div_mul_le_self n 10
      omega

theorem natRepr_len_mono (a b : Nat) (h : a < b) :
    (natRepr a).length ≤ (natRepr b).length := by
  by_contra hc
  push_neg at hc
  have h2 : 2 ≤ (natRepr a).length := by
    have hb1 : 1 ≤ (natRepr b).length := by
      have := natRepr_ne_nil b
      rcases hn : natRepr b with _ | _
      · exact absurd hn this
      · simp
    omega
  have h3 := natRepr_pow_le a h2
  have h4 := natRepr_lt_pow b
  have h5 : 10 ^ (natRepr b).length ≤ 10 ^ ((natRepr a).length - 1) :=
    Nat.pow_le_pow_right (by omega) (by omega)
  omega

theorem natRepr_length_le (n w : Nat) (h : n < 10 ^ w) (hw : 1 ≤ w) :
    (natRepr n).length ≤ w := by
  by_contra hc
  push_neg at hc
  have h2 : 2 ≤ (natRepr n).length := by omega
  have h3 := natRepr_pow_le n h2
  have h5 : 10 ^ w ≤ 10 ^ ((natRepr n).length - 1) :=
    Nat.pow_le_pow_right (by omega) (by omega)
  omega

theorem natRepr_lt_same_len : ∀ b a : Nat, a < b →
    (natRepr a).length = (natRepr b).length → lexLt (natRepr a) (natRepr b) = true := by
  intro b
  induction b using Nat.strong_induction_on with
  | _ b ih =>
    intro a hab hlen
    by_cases hb : b < 10
    · rw [natRepr_eq a, if_pos (by omega), natRepr_eq b, if_pos hb]
      exact (lexLt_cons_iff _ _ _ _).mpr (Or.inl (digitCh_lt a b (by omega) hb hab))
    · have ha : ¬ a < 10 := by
        intro ha
        rw [natRepr_eq a, if_pos ha, natRepr_eq b, if_neg hb] at hlen
        have h1 : 1 ≤ (natRepr (b / 10)).length := by
          have := natRepr_ne_nil (b / 10)
          rcases hn : natRepr (b / 10) with _ | _
          · exact absurd hn this
          · simp
        simp only [List.length_singleton, List.length_append] at hlen
        omega
      rw [natRepr_eq a, if_neg ha, natRepr_eq b, if_neg hb] at hlen ⊢
      have hlen2 : (natRepr (a / 10)).length = (natRepr (b / 10)).length := by
        simp only [List.length_append, List.length_singleton] at hlen
        omega
      have hdivle : a / 10 ≤ b / 10 := Nat.div_le_div_right (by omega)
      rcases Nat.lt_or_ge (a / 10) (b / 10) with hdiv | hdiv
      · refine (lexLt_append_iff _ _ _ _ hlen2).mpr (Or.inl ?_)
        exact ih (b / 10) (Nat.div_lt_self (by omega) (by omega)) (a / 10) hdiv hlen2
      · have hdeq : a / 10 = b / 10 := by omega
        have hmod : a % 10 < b % 10 := by omega
        refine (lexLt_append_iff _ _ _ _ hlen2).mpr (Or.inr ⟨by rw [hdeq], ?_⟩)
        exact (lexLt_cons_iff _ _ _ _).mpr
          (Or.inl (digitCh_lt _ _ (Nat.mod_lt _ (by omega)) (Nat.mod_lt _ (by omega)) hmod))

theorem padRJ_lt (w a b : Nat) (hab : a < b) (hb : b < 10 ^ w) :
    lexLt (padRJ w a) (padRJ w b) = true := by
  have hw : 1 ≤ w := by
    rcases Nat.eq_zero_or_pos w with h0 | h0
    · subst h0
      simp at hb
      omega
    · omega
  have hlb : (natRepr b).length ≤ w := natRepr_length_le b w hb hw
  have hmono := natRepr_len_mono a b hab
  rcases Nat.lt_or_ge (natRepr a).length (natRepr b).length with hlt | hge
  · -- strictly shorter: extra spaces, then a space faces the leading digit of b
    unfold padRJ
    have hsplit : w - (natRepr a).length =
        (w - (natRepr b).length) + ((natRepr b).length - (natRepr a).length) := by omega
    rw [hsplit, List.replicate_add, List.append_assoc]
    refine (lexLt_append_iff _ _ _ _ rfl).mpr (Or.inr ⟨rfl, ?_⟩)
    obtain ⟨hd, tl, hnb⟩ := List.exists_cons_of_ne_nil (natRepr_ne_nil b)
    have hdig : hd.isDigit = true :=
      natRepr_digits b hd (by rw [hnb]; exact List.mem_cons_self _ _)
    have hrep : (natRepr b).length - (natRepr a).length =
        ((natRepr b).length - (natRepr a).length - 1) + 1 := by omega
    rw [hrep, List.replicate_succ, hnb]
    exact (lexLt_cons_iff _ _ _ _).mpr (Or.inl (space_lt_digit hd hdig))
  · have hleq : (natRepr a).length = (natRepr b).length := by omega
    unfold padRJ
    rw [hleq]
    exact (lexLt_append_iff _ _ _ _ rfl).mpr
      (Or.inr ⟨rfl, natRepr_lt_same_len b a hab hleq⟩)

theorem padRJ_lt_iff (w a b : Nat) (ha : a < 10 ^ w) (hb : b < 10 ^ w) :
    lexLt (padRJ w a) (padRJ w b) = true ↔ a < b := by
  constructor
  · intro h
    rcases lt_trichotomy a b with h1 | h1 | h1
    · exact h1
    · subst h1
      rw [lexLt_irrefl] at h
      exact absurd h (by simp)
    · have h2 := padRJ_lt w b a h1 ha
      have h3 := lexLt_not_le _ _ h2
      rw [lexLe_of_lt _ _ h] at h3
      exact absurd h3 (by simp)
  · intro h
    exact padRJ_lt w a b h hb

theorem padRJ_inj (w a b : Nat) (ha : a < 10 ^ w) (hb : b < 10 ^ w)
    (h : padRJ w a = padRJ w b) : a = b := by
  rcases lt_trichotomy a b with h1 | h1 | h1
  · have h2 := padRJ_lt w a b h1 hb
    rw [h, lexLt_irrefl] at h2
    exact absurd h2 (by simp)
  · exact h1
  · have h2 := padRJ_lt w b a h1 ha
    rw [h, lexLt_irrefl] at h2
    exact absurd h2 (by simp)

theorem padRJ_le_imp (w a b : Nat) (ha : a < 10 ^ w) (hb : b < 10 ^ w)
    (h : lexLe (padRJ w a) (padRJ w b) = true) : a ≤ b := by
  rcases (lexLe_iff _ _).mp h with h1 | h1
  · exact le_of_lt ((padRJ_lt_iff w a b ha hb).mp h1)
  · exact le_of_eq (padRJ_inj w a b ha hb h1)

theorem padRJ_length (w n : Nat) (h : (natRepr n).length ≤ w) : (padRJ w n).length = w := by
  unfold padRJ
  simp only [List.length_append, List.length_replicate]
  omega

theorem processLine_ident (kf : KeyFile) (l : List Char) (kf' : KeyFile)
    (h : processLine kf l = Except.ok kf') :
    kf'.name = kf.name ∧ kf'.zone = kf.zone ∧ kf'.algo = kf.algo ∧ kf'.keyid = kf.keyid := by
  rw [processLine_fields] at h
  by_cases c1 : selCreated l
  · rw [if_pos c1] at h
    rcases hd : date_part l with e | d <;> rw [hd] at h <;> dsimp only at h
    · simp at h
    · have h2 : ({ kf with d_create := some d } : KeyFile) = kf' := by simpa using h
      rw [← h2]
      exact ⟨rfl, rfl, rfl, rfl⟩
  · rw [if_neg c1] at h
    by_cases c2 : selPublish l
    · rw [if_pos c2] at h
      rcases hd : date_part l with e | d <;> rw [hd] at h <;> dsimp only at h
      · simp at h
      · have h2 : ({ kf with d_publish := some d } : KeyFile) = kf' := by simpa using h
        rw [← h2]
        exact ⟨rfl, rfl, rfl, rfl⟩
    · rw [if_neg c2] at h
      by_cases c3 : selActive l
      · rw [if_pos c3] at h
        rcases hd : date_part l with e | d <;> rw [hd] at h <;> dsimp only at h
        · simp at h
        · have h2 : ({ kf with d_active := some d } : KeyFile) = kf' := by simpa using h
          rw [← h2]
          exact ⟨rfl, rfl, rfl, rfl⟩
      · rw [if_neg c3] at h
        by_cases c4 : selInactive l
        · rw [if_pos c4] at h
          rcases hd : date_part l with e | d <;> rw [hd] at h <;> dsimp only at h
          · simp at h
          · have h2 : ({ kf with d_inactive := some d } : KeyFile) = kf' := by simpa using h
            rw [← h2]
            exact ⟨rfl, rfl, rfl, rfl⟩
        · rw [if_neg c4] at h
          by_cases c5 : selDelete l
          · rw [if_pos c5] at h
            rcases hd : date_part l with e | d <;> rw [hd] at h <;> dsimp only at h
            · simp at h
            · have h2 : ({ kf with d_delete := some d } : KeyFile) = kf' := by simpa using h
              rw [← h2]
              exact ⟨rfl, rfl, rfl, rfl⟩
          · rw [if_neg c5] at h
            by_cases c6 : selDescr l
            · rw [if_pos c6] at h
              obtain ⟨t, rfl, -⟩ := processDescr_ok_shape kf l kf' h
              exact ⟨rfl, rfl, rfl, rfl⟩
            · rw [if_neg c6] at h
              have h2 : kf = kf' := by simpa using h
              rw [← h2]
              exact ⟨rfl, rfl, rfl, rfl⟩

theorem foldLines_ident : ∀ (lines : List (List Char)) (kf kf' : KeyFile),
    foldLines kf lines = Except.ok kf' →
    kf'.name = kf.name ∧ kf'.zone = kf.zone ∧ kf'.algo = kf.algo ∧ kf'.keyid = kf.keyid := by
  intro lines
  induction lines with
  | nil =>
    intro kf kf' h
    have h2 : kf = kf' := by simpa [foldLines] using h
    rw [← h2]
    exact ⟨rfl, rfl, rfl, rfl⟩
  | cons l ls ih =>
    intro kf kf' h
    unfold foldLines at h
    rcases hp : processLine kf l with e | kf1 <;> rw [hp] at h <;> dsimp only at h
    · simp at h
    · obtain ⟨i1, i2, i3, i4⟩ := ih kf1 kf' h
      obtain ⟨j1, j2, j3, j4⟩ := processLine_ident kf l kf1 hp
      exact ⟨i1.trans j1, i2.trans j2, i3.trans j3, i4.trans j4⟩

theorem mkKeyFile_fields (stem : List Char) (lines : List (List Char)) (kf : KeyFile)
    (h : mkKeyFile stem lines = Except.ok kf) :
    ∃ z a k, parseStem stem = Except.ok (z, a, k) ∧
      kf.zone = z ∧ kf.algo = a ∧ kf.keyid = k := by
  rcases hps : parseStem stem with e | ⟨z, a, k⟩
  · unfold mkKeyFile at h
    rw [hps] at h
    simp at h
  · rw [mkKeyFile_parts stem lines z a k hps] at h
    obtain ⟨-, h2, h3, h4⟩ := foldLines_ident lines _ kf h
    exact ⟨z, a, k, rfl, by simpa using h2, by simpa using h3, by simpa using h4⟩

theorem mkKeyFile_type (stem : List Char) (lines : List (List Char)) (kf : KeyFile)
    (h : mkKeyFile stem lines = Except.ok kf) :
    kf.type = [] ∨ kf.type = ("ZSK".toList) ∨ kf.type = ("KSK".toList) := by
  rcases hps : parseStem stem with e | ⟨z, a, k⟩
  · unfold mkKeyFile at h
    rw [hps] at h
    simp at h
  · rw [mkKeyFile_parts stem lines z a k hps] at h
    have := foldLines_type_inv lines _ kf h
    simpa using this

theorem parseStem_fields (z a k : List Char) (hz : '+' ∉ z) (ha : '+' ∉ a) (hk : '+' ∉ k)
    (hane : a ≠ []) (had : ∀ c ∈ a, c.isDigit = true)
    (hkne : k ≠ []) (hkd : ∀ c ∈ k, c.isDigit = true) :
    parseStem ('K' :: z ++ '+' :: (a ++ '+' :: k)) =
      Except.ok (z, valDigits a, valDigits k) := by
  have hsplit := splitCh_stem z a k hz ha hk
  unfold parseStem idx pyIntE
  rw [hsplit]
  simp only [List.get?]
  rw [pyInt_digits a hane had, pyInt_digits k hkne hkd]
  rfl

theorem convName_parse (nm : List Char) (h : ConvName nm) :
    ∃ z va vk, parseStem (pyStem nm) = Except.ok (z, va, vk) ∧
      (∀ c ∈ z, '+' < c) ∧ va < 1000 ∧ vk < 100000 := by
  obtain ⟨z, a, k, rfl, hz, ha3, had, hk5, hkd⟩ := h
  have hplus_z : '+' ∉ z := fun hm => absurd (hz '+' hm) (lt_irrefl _)
  have hplus_a : '+' ∉ a := fun hm => absurd (had '+' hm) (by decide)
  have hplus_k : '+' ∉ k := fun hm => absurd (hkd '+' hm) (by decide)
  have hane : a ≠ [] := by
    intro h0
    rw [h0] at ha3
    simp at ha3
  have hkne : k ≠ [] := by
    intro h0
    rw [h0] at hk5
    simp at hk5
  have hstem : pyStem (('K' :: z ++ '+' :: (a ++ '+' :: k)) ++ ('.' :: ("key".toList))) =
      'K' :: z ++ '+' :: (a ++ '+' :: k) :=
    pyStem_append _ _ (by simp) (by decide) (by decide)
  rw [hstem, parseStem_fields z a k hplus_z hplus_a hplus_k hane had hkne hkd]
  refine ⟨z, valDigits a, valDigits k, rfl, hz, ?_, ?_⟩
  · have := valDigits_lt a had
    rw [ha3] at this
    omega
  · have := valDigits_lt k hkd
    rw [hk5] at this
    omega

theorem mapKeyFiles_mem : ∀ (es : List DirEntry) (recs : List KeyFile),
    mapKeyFiles es = Except.ok recs →
    (∀ e ∈ es, ∃ kf, mkKeyFile (pyStem e.fname) e.content = Except.ok kf ∧ kf ∈ recs) ∧
    (∀ kf ∈ recs, ∃ e ∈ es, mkKeyFile (pyStem e.fname) e.content = Except.ok kf) := by
  intro es
  induction es with
  | nil =>
    intro recs h
    have h2 : ([] : List KeyFile) = recs := by simpa [mapKeyFiles] using h
    rw [← h2]
    exact ⟨by simp, by simp⟩
  | cons e es ih =>
    intro recs h
    unfold mapKeyFiles at h
    rcases hk : mkKeyFile (pyStem e.fname) e.content with er | kf0 <;> rw [hk] at h <;>
      dsimp only at h
    · simp at h
    · rcases hrest : mapKeyFiles es with er | kfs <;> rw [hrest] at h <;> dsimp only at h
      · simp at h
      · have h2 : kf0 :: kfs = recs := by simpa using h
        rw [← h2]
        obtain ⟨ih1, ih2⟩ := ih kfs hrest
        constructor
        · intro x hx
          rcases List.mem_cons.mp hx with rfl | hx
          · exact ⟨kf0, hk, List.mem_cons_self _ _⟩
          · obtain ⟨kf, hh1, hh2⟩ := ih1 x hx
            exact ⟨kf, hh1, List.mem_cons_of_mem _ hh2⟩
        · intro kf hkf
          rcases List.mem_cons.mp hkf with rfl | hkf
          · exact ⟨e, List.mem_cons_self _ _, hk⟩
          · obtain ⟨e', hh1, hh2⟩ := ih2 kf hkf
            exact ⟨e', List.mem_cons_of_mem _ hh1, hh2⟩

theorem sortKey_le_imp_spec (r1 r2 : KeyFile)
    (hz1 : ∀ c ∈ r1.zone, '+' < c) (hz2 : ∀ c ∈ r2.zone, '+' < c)
    (ht1 : r1.type = [] ∨ r1.type = ("ZSK".toList) ∨ r1.type = ("KSK".toList))
    (ht2 : r2.type = [] ∨ r2.type = ("ZSK".toList) ∨ r2.type = ("KSK".toList))
    (ha1 : r1.algo < 1000) (ha2 : r2.algo < 1000)
    (hk1 : r1.keyid < 100000) (hk2 : r2.keyid < 100000)
    (h : lexLe (sort_key r1) (sort_key r2) = true) : specKeyOrder r1 r2 := by
  have hty1 : ∀ c ∈ r1.type, '+' < c := by
    intro c hc
    rcases ht1 with ht | ht | ht <;> rw [ht] at hc
    · simp at hc
    · fin_cases hc <;> decide
    · fin_cases hc <;> decide
  have hty2 : ∀ c ∈ r2.type, '+' < c := by
    intro c hc
    rcases ht2 with ht | ht | ht <;> rw [ht] at hc
    · simp at hc
    · fin_cases hc <;> decide
    · fin_cases hc <;> decide
  have p31 : r1.algo < 10 ^ 3 := by
    rw [show (10 : Nat) ^ 3 = 1000 from by norm_num]
    exact ha1
  have p32 : r2.algo < 10 ^ 3 := by
    rw [show (10 : Nat) ^ 3 = 1000 from by norm_num]
    exact ha2
  have p51 : r1.keyid < 10 ^ 5 := by
    rw [show (10 : Nat) ^ 5 = 100000 from by norm_num]
    exact hk1
  have p52 : r2.keyid < 10 ^ 5 := by
    rw [show (10 : Nat) ^ 5 = 100000 from by norm_num]
    exact hk2
  unfold sort_key at h
  rcases (lexLe_sep_iff _ _ _ _ hz1 hz2).mp h with hzlt | ⟨hzeq, h2⟩
  · exact Or.inl hzlt
  · right
    refine ⟨hzeq, ?_⟩
    rcases (lexLe_sep_iff _ _ _ _ hty1 hty2).mp h2 with htlt | ⟨hteq, h3⟩
    · exact Or.inl htlt
    · right
      refine ⟨hteq, ?_⟩
      have hlen : (padRJ 3 r1.algo).length = (padRJ 3 r2.algo).length := by
        rw [padRJ_length 3 _ (natRepr_length_le _ 3 p31 (by omega)),
          padRJ_length 3 _ (natRepr_length_le _ 3 p32 (by omega))]
      rcases (lexLe_append_iff _ _ _ _ hlen).mp h3 with halt | ⟨haeq, h4⟩
      · exact Or.inl ((padRJ_lt_iff 3 _ _ p31 p32).mp halt)
      · right
        refine ⟨padRJ_inj 3 _ _ p31 p32 haeq, ?_⟩
        rcases (lexLe_cons_iff _ _ _ _).mp h4 with hlt | ⟨-, h5⟩
        · exact absurd hlt (lt_irrefl _)
        · exact padRJ_le_imp 5 _ _ p51 p52 h5

/-! ## The claims -/

/-- C1: `state(t)` is decided by a strict priority chain, most-terminal
first: `DEL` if deleted at or before `t`; else `INAC`; else `ACT`; else
`PUB`; else `FUT` if created strictly after `t`; else the empty state.  The
spec's worked example takes the states `""`, `PUB`, `ACT`, `INAC`, `DEL` at
the five listed reference times. -/
theorem claim1_state_priority_chain :
    (∀ (kf : KeyFile) (t : Nat),
      (state kf t = "DEL" ↔ DelAt kf t) ∧
      (state kf t = "INAC" ↔ ¬ DelAt kf t ∧ InacAt kf t) ∧
      (state kf t = "ACT" ↔ ¬ DelAt kf t ∧ ¬ InacAt kf t ∧ ActAt kf t) ∧
      (state kf t = "PUB" ↔ ¬ DelAt kf t ∧ ¬ InacAt kf t ∧ ¬ ActAt kf t ∧ PubAt kf t) ∧
      (state kf t = "FUT" ↔ ¬ DelAt kf t ∧ ¬ InacAt kf t ∧ ¬ ActAt kf t ∧ ¬ PubAt kf t ∧
        FutAt kf t) ∧
      (state kf t = "" ↔ ¬ DelAt kf t ∧ ¬ InacAt kf t ∧ ¬ ActAt kf t ∧ ¬ PubAt kf t ∧
        ¬ FutAt kf t)) ∧
    (state specExampleKey 20231201000000 = "" ∧
     state specExampleKey 20240115000000 = "PUB" ∧
     state specExampleKey 20240301000000 = "ACT" ∧
     state specExampleKey 20240615000000 = "INAC" ∧
     state specExampleKey 20240801000000 = "DEL") := by
  constructor
  · intro kf t
    simp only [DelAt, InacAt, ActAt, PubAt, FutAt, ← optLe_eq_true_iff, ← optGt_eq_true_iff]
    unfold state
    split_ifs with h1 h2 h3 h4 h5 <;> simp_all
  · exact ⟨by decide, by decide, by decide, by decide, by decide⟩

/-- C2: when the assigned timestamps (publish, activate, inactivate, delete,
in that order, unset ones dropped) are non-decreasing, `next_change(t)`
returns exactly the smallest assigned timestamp strictly after `t`, or
`noChange` when none remains; when they are not non-decreasing it returns
the inconsistent-schedule sentinel (for any `t`, without raising); and the
created timestamp is ignored entirely. -/
theorem claim2_next_change :
    ∀ (kf : KeyFile) (ref : Nat),
      ((assigned kf).Pairwise (· ≤ ·) →
        (∀ t, next_change kf ref = NextChange.changeAt t ↔
            t ∈ assigned kf ∧ ref < t ∧ ∀ u ∈ assigned kf, ref < u → t ≤ u) ∧
        (next_change kf ref = NextChange.noChange ↔ ∀ u ∈ assigned kf, u ≤ ref)) ∧
      (¬ (assigned kf).Pairwise (· ≤ ·) → next_change kf ref = NextChange.inconsistent) ∧
      (∀ c, next_change { kf with d_create := c } ref = next_change kf ref) := by
  intro kf ref
  refine ⟨?_, ?_, ?_⟩
  · intro hp
    have hsort : List.insertionSort (· ≤ ·) (assigned kf) = assigned kf :=
      (insertionSort_nat_eq_self_iff _).mpr hp
    have hsome := find_first_gt_some ref (assigned kf) hp
    have hnone := find_first_gt_none ref (assigned kf)
    have hnc : next_change kf ref =
        match (assigned kf).find? (fun x => decide (ref < x)) with
        | some t => NextChange.changeAt t
        | none => NextChange.noChange := by
      unfold next_change
      rw [if_pos hsort]
    constructor
    · intro t
      rcases hfind : (assigned kf).find? (fun x => decide (ref < x)) with _ | t'
      · rw [hfind] at hnc
        simp only [hnc]
        constructor
        · intro h; exact absurd h (by simp)
        · rintro ⟨ht, hrt, -⟩
          exact absurd ((hnone.mp hfind) t ht) (by omega)
      · rw [hfind] at hnc
        simp only [hnc]
        obtain ⟨ht', hrt', hmin'⟩ := hsome t' hfind
        constructor
        · intro h
          obtain rfl : t' = t := by simpa using h
          exact ⟨ht', hrt', hmin'⟩
        · rintro ⟨ht, hrt, hmin⟩
          have h1 : t ≤ t' := hmin t' ht' hrt'
          have h2 : t' ≤ t := hmin' t ht hrt
          have : t' = t := le_antisymm h2 h1
          simp [this]
    · rcases hfind : (assigned kf).find? (fun x => decide (ref < x)) with _ | t'
      · rw [hfind] at hnc
        simp only [hnc]
        simpa using hnone.mp hfind
      · rw [hfind] at hnc
        simp only [hnc]
        obtain ⟨ht', hrt', -⟩ := hsome t' hfind
        constructor
        · intro h; exact absurd h (by simp)
        · intro h
          exact absurd (h t' ht') (by omega)
  · intro hp
    have hsort : ¬ List.insertionSort (· ≤ ·) (assigned kf) = assigned kf :=
      fun h => hp ((insertionSort_nat_eq_self_iff _).mp h)
    unfold next_change
    rw [if_neg hsort]
  · intro c
    rfl

/-- Witness for C2 at the spec's worked example and reference time
2024-01-15: the next change is the activation date 2024-02-01. -/
theorem claim2_next_change_witness :
    next_change specExampleKey 20240115000000 = NextChange.changeAt 20240201000000 :=
  (((claim2_next_change specExampleKey 20240115000000).1 (by decide)).1
    20240201000000).mpr (by decide)

/-- C3: for a key file carrying a descriptive comment line, construction
fails with `IdentityMismatchError` exactly when the key tag embedded in the
comment differs from the filename keyId or the embedded zone differs from
the filename zone; when both match, construction succeeds. -/
theorem claim3_identity_mismatch :
    ∀ (stem z : List Char) (a k : Nat) (line w4 w7 wl : List Char) (n : Nat),
      parseStem stem = Except.ok (z, a, k) →
      selDescr line = true →
      (pyWords line).get? 4 = some w4 →
      (w4 = ("zone-signing".toList) ∨ w4 = ("key-signing".toList)) →
      (pyWords line).get? 7 = some w7 →
      pyInt w7.dropLast = some n →
      (pyWords line).getLast? = some wl →
      ((n ≠ k ∨ wl ≠ z) → mkKeyFile stem [line] = Except.error KeyErr.identityMismatch) ∧
      (n = k → wl = z → ∃ kf, mkKeyFile stem [line] = Except.ok kf ∧
        kf.zone = z ∧ kf.keyid = k) := by
  intro stem z a k line w4 w7 wl n hps hsel h4 hw h7 hn hl
  obtain ⟨ty, hty⟩ : ∃ t, typeWord w4 = Except.ok t := by
    rcases hw with rfl | rfl
    · exact ⟨_, rfl⟩
    · exact ⟨_, rfl⟩
  have hidx4 : idx (pyWords line) 4 = Except.ok w4 := by unfold idx; rw [h4]
  have hidx7 : idx (pyWords line) 7 = Except.ok w7 := by unfold idx; rw [h7]
  have hpyint : pyIntE w7.dropLast = Except.ok n := by unfold pyIntE; rw [hn]
  have init : KeyFile := { name := stem, zone := z, algo := a, keyid := k, type := [] }
  have hred : processDescr { name := stem, zone := z, algo := a, keyid := k, type := [] } line =
      (if k ≠ n then Except.error KeyErr.identityMismatch
       else if z ≠ wl then Except.error KeyErr.identityMismatch
       else Except.ok { name := stem, zone := z, algo := a, keyid := k, type := ty }) := by
    unfold processDescr
    rw [hidx4]
    dsimp only
    rw [hty]
    dsimp only
    rw [hidx7]
    dsimp only
    rw [hpyint]
    dsimp only
    rw [hl]
  have hfold : ∀ r, mkKeyFile stem [line] = r ↔
      processDescr { name := stem, zone := z, algo := a, keyid := k, type := [] } line = r := by
    intro r
    rw [mkKeyFile_parts stem [line] z a k hps]
    unfold foldLines
    rw [processLine_descr_branch _ _ hsel]
    rcases hres : processDescr { name := stem, zone := z, algo := a, keyid := k, type := [] } line
      with e | kf1
    · simp
    · simp [foldLines]
  constructor
  · intro hmm
    by_cases hkn : k = n
    · have hwz : wl ≠ z := by
        rcases hmm with hx | hx
        · exact absurd hkn.symm hx
        · exact hx
      rw [hfold, hred, if_neg (by simpa using hkn), if_pos (by exact fun hzz => hwz hzz.symm)]
    · rw [hfold, hred, if_pos hkn]
  · intro hnk hwz
    refine ⟨{ name := stem, zone := z, algo := a, keyid := k, type := ty }, ?_, rfl, rfl⟩
    rw [hfold, hred, if_neg (by simp [hnk]), if_neg (by simp [hwz])]

/-- C3 witness: a correctly matching descriptive comment constructs
successfully. -/
theorem claim3_witness :
    ∃ kf, mkKeyFile ("Kexample.com+013+00042".toList)
        [("; This is a zone-signing key, keyid 42, for example.com".toList)] = Except.ok kf ∧
      kf.zone = ("example.com".toList) ∧ kf.keyid = 42 :=
  (claim3_identity_mismatch ("Kexample.com+013+00042".toList) ("example.com".toList) 13 42
    ("; This is a zone-signing key, keyid 42, for example.com".toList)
    ("zone-signing".toList) ("42,".toList) ("example.com".toList) 42
    (by decide) (by decide) (by decide) (Or.inl rfl) (by decide) (by decide) (by decide)).2
    rfl rfl

/-- C7 (amended): every successfully constructed record has keyType `""`,
`"ZSK"` or `"KSK"`, and it is the empty value whenever no descriptive
comment line is present; but a descriptive line with an unrecognized
key-purpose word makes construction FAIL with `UnrecognizedTypeError`
rather than succeed with an empty keyType (which corrects the claim). -/
theorem claim7_keytype :
    (∀ stem lines kf, mkKeyFile stem lines = Except.ok kf →
      (kf.type = [] ∨ kf.type = ("ZSK".toList) ∨ kf.type = ("KSK".toList)) ∧
      ((∀ l ∈ lines, selDescr l = false) → kf.type = [])) ∧
    (∀ (kf : KeyFile) (line w4 : List Char), selDescr line = true →
      (pyWords line).get? 4 = some w4 →
      w4 ≠ ("zone-signing".toList) → w4 ≠ ("key-signing".toList) →
      processLine kf line = Except.error KeyErr.unrecognizedType) := by
  constructor
  · intro stem lines kf h
    rcases hps : parseStem stem with e | ⟨z, a, k⟩
    · unfold mkKeyFile at h
      rw [hps] at h
      simp at h
    · rw [mkKeyFile_parts stem lines z a k hps] at h
      constructor
      · have := foldLines_type_inv lines _ kf h
        simpa using this
      · intro hno
        have := foldLines_type_nodescr lines _ kf h hno
        simpa using this
  · intro kf line w4 hsel h4 hz hk
    rw [processLine_descr_branch kf line hsel]
    unfold processDescr
    have hidx4 : idx (pyWords line) 4 = Except.ok w4 := by unfold idx; rw [h4]
    rw [hidx4]
    dsimp only
    have hty : typeWord w4 = Except.error KeyErr.unrecognizedType := by
      unfold typeWord
      rw [if_neg hz, if_neg hk]
    rw [hty]

/-- C7 counterexample: a file whose descriptive comment names the
unrecognized purpose word `special-signing` does not construct successfully
with an empty keyType — construction fails with `UnrecognizedTypeError`. -/
theorem claim7_counterexample :
    mkKeyFile ("Kexample.com+013+00042".toList)
      [("; This is a special-signing key, keyid 42, for example.com".toList)] =
      Except.error KeyErr.unrecognizedType := by decide

/-- C10: when the same timestamp label appears on several comment lines,
the constructed record's temporal field is the date parsed from the last
such line in file order — later occurrences silently overwrite earlier
ones, and no duplicate-line error is raised. -/
theorem claim10_last_duplicate_wins :
    ∀ (stem : List Char) (lines : List (List Char)) (kf : KeyFile),
      mkKeyFile stem lines = Except.ok kf →
      kf.d_create = (dateLinesOf selCreated lines).getLast? ∧
      kf.d_publish = (dateLinesOf selPublish lines).getLast? ∧
      kf.d_active = (dateLinesOf selActive lines).getLast? ∧
      kf.d_inactive = (dateLinesOf selInactive lines).getLast? ∧
      kf.d_delete = (dateLinesOf selDelete lines).getLast? := by
  intro stem lines kf h
  rcases hps : parseStem stem with e | ⟨z, a, k⟩
  · unfold mkKeyFile at h
    rw [hps] at h
    simp at h
  · rw [mkKeyFile_parts stem lines z a k hps] at h
    have hd := foldLines_dates lines _ kf h
    simpa [Option.or_none] using hd

/-- C10 witness: a file with two `Publish:` lines constructs successfully
and keeps the second date. -/
theorem claim10_witness :
    ∃ kf, mkKeyFile ("Kexample.com+013+00042".toList)
        [("; Publish: 20240101000000".toList), ("; Publish: 20240301000000".toList)] =
        Except.ok kf ∧ kf.d_publish = some 20240301000000 := by
  rcases hk : mkKeyFile ("Kexample.com+013+00042".toList)
      [("; Publish: 20240101000000".toList), ("; Publish: 20240301000000".toList)] with e | kf
  · cases e <;> exact absurd hk (by decide)
  · refine ⟨kf, rfl, ?_⟩
    have h := (claim10_last_duplicate_wins _ _ _ hk).2.1
    rw [h]
    decide

/-- C9 counterexample: a stem with four `+`-separated fields does not fail;
it parses successfully from the first three fields. -/
theorem claim9_counterexample :
    (splitCh '+' ("Kexample.com+013+00042+junk".toList)).length = 4 ∧
    parseStem ("Kexample.com+013+00042+junk".toList) =
      Except.ok (("example.com".toList), 13, 42) := ⟨by decide, by decide⟩

/-- C9 (amended): filename parsing fails (with the spec's ParseError) when
the stem splits on `+` into fewer than three fields; with at least three
fields whose second and third are decimal numerals it succeeds using the
first three fields (extra fields are ignored, which corrects the claim's
"exactly 3" shape); and a date-bearing comment line whose third token is
not exactly 14 characters fails with ParseError. -/
theorem claim9_parse_failures :
    (∀ stem : List Char, (splitCh '+' stem).length < 3 →
      parseStem stem = Except.error KeyErr.parseError) ∧
    (∀ (stem aw kw : List Char) (a k : Nat), (splitCh '+' stem).get? 1 = some aw →
      (splitCh '+' stem).get? 2 = some kw → pyInt aw = some a → pyInt kw = some k →
      parseStem stem = Except.ok (((splitCh '+' stem).headD []).drop 1, a, k)) ∧
    (∀ (line dt : List Char), (pyWords line).get? 2 = some dt → dt.length ≠ 14 →
      date_part line = Except.error KeyErr.parseError) := by
  refine ⟨?_, ?_, ?_⟩
  · intro stem hlen
    unfold parseStem
    rcases hg1 : (splitCh '+' stem).get? 1 with _ | aw
    · unfold idx
      rw [hg1]
    · have hg2 : (splitCh '+' stem).get? 2 = none := List.get?_eq_none.mpr (by omega)
      unfold idx
      rw [hg1, hg2]
      dsimp only
      rcases hpi : pyInt aw with _ | a <;> unfold pyIntE <;> rw [hpi]
  · intro stem aw kw a k hg1 hg2 hpa hpk
    unfold parseStem idx pyIntE
    rw [hg1, hg2]
    dsimp only
    rw [hpa, hpk]
  · intro line dt hg hlen
    unfold date_part idx
    rw [hg]
    dsimp only
    rw [if_pos hlen]

/-- C9 witness: a one-field stem fails, and a 4-character date token
fails. -/
theorem claim9_witness :
    parseStem ("Kexample.com".toList) = Except.error KeyErr.parseError ∧
    date_part ("; Created: 2024 extra".toList) = Except.error KeyErr.parseError :=
  ⟨claim9_parse_failures.1 ("Kexample.com".toList) (by decide),
   claim9_parse_failures.2.2 ("; Created: 2024 extra".toList) ("2024".toList)
     (by decide) (by decide)⟩

/-- C4: for every valid key filename `K<zone>+<3-digit-algo>+<5-digit-keyId>.key`,
the stem parses to `(zone, algorithm, keyId)`, and re-encoding those three
parsed fields through `__str__` (zero-padded `%03d`/`%05d`) with the `K`
marker and `.key` suffix reproduces the original filename exactly. -/
theorem claim4_roundtrip :
    ∀ (z a k : List Char), '+' ∉ z → a ≠ [] → (∀ c ∈ a, c.isDigit = true) → a.length = 3 →
      k ≠ [] → (∀ c ∈ k, c.isDigit = true) → k.length = 5 →
      pyStem (('K' :: z ++ '+' :: (a ++ '+' :: k)) ++ ('.' :: ("key".toList))) =
        'K' :: z ++ '+' :: (a ++ '+' :: k) ∧
      parseStem ('K' :: z ++ '+' :: (a ++ '+' :: k)) =
        Except.ok (z, valDigits a, valDigits k) ∧
      (∀ kf : KeyFile, kf.zone = z → kf.algo = valDigits a → kf.keyid = valDigits k →
        'K' :: keyfileStr kf ++ ('.' :: ("key".toList)) =
          ('K' :: z ++ '+' :: (a ++ '+' :: k)) ++ ('.' :: ("key".toList))) := by
  intro z a k hz hane hadig halen hkne hkdig hklen
  have hpa : '+' ∉ a := fun hm => absurd (hadig '+' hm) (by decide)
  have hpk : '+' ∉ k := fun hm => absurd (hkdig '+' hm) (by decide)
  have hsplit := splitCh_stem z a k hz hpa hpk
  refine ⟨?_, ?_, ?_⟩
  · exact pyStem_append ('K' :: z ++ '+' :: (a ++ '+' :: k)) ("key".toList)
      (by simp) (by decide) (by decide)
  · unfold parseStem idx pyIntE
    rw [hsplit]
    simp only [List.get?]
    rw [pyInt_digits a hane hadig, pyInt_digits k hkne hkdig]
    rfl
  · intro kf h1 h2 h3
    unfold keyfileStr
    rw [h1, h2, h3, ← halen, ← hklen, padZ_valDigits a hane hadig,
      padZ_valDigits k hkne hkdig]
    simp

/-- C4 witness at the filename `Kexample.com+013+00042.key`. -/
theorem claim4_witness :
    pyStem (('K' :: ("example.com".toList) ++ '+' :: (("013".toList) ++ '+' ::
        ("00042".toList))) ++ ('.' :: ("key".toList))) =
      'K' :: ("example.com".toList) ++ '+' :: (("013".toList) ++ '+' :: ("00042".toList)) ∧
    parseStem ('K' :: ("example.com".toList) ++ '+' :: (("013".toList) ++ '+' ::
        ("00042".toList))) =
      Except.ok (("example.com".toList), valDigits ("013".toList), valDigits ("00042".toList)) := by
  have h := claim4_roundtrip ("example.com".toList) ("013".toList) ("00042".toList)
    (by decide) (by decide) (by decide) (by decide) (by decide) (by decide) (by decide)
  exact ⟨h.1, h.2.1⟩

/-- C6 counterexample: `Kexample.com+013+00042.key` is matched by the
non-recursive pattern for `example.com` but NOT by the recursive pattern,
so the recursive pattern does not match the key files of the zone itself. -/
theorem claim6_counterexample :
    globMatch (keyGlobPat ("example.com".toList) false)
      ("Kexample.com+013+00042.key".toList) = true ∧
    globMatch (keyGlobPat ("example.com".toList) true)
      ("Kexample.com+013+00042.key".toList) = false := ⟨by decide, by decide⟩

/-- C6 (amended): the recursive pattern `K*.{zone}+*+*.key` matches the
key files of every proper subdomain of the zone (any file
`K<label>.<zone>+<algo>+<id>.key`), though not the zone's own key files. -/
theorem claim6_recursive_matches_subdomains :
    ∀ (z w a k : List Char), (∀ c ∈ z, c ≠ '*' ∧ c ≠ '?') → z.head? ≠ some '.' →
      globMatch (keyGlobPat z true)
        ('K' :: (w ++ '.' :: (z ++ '+' :: (a ++ '+' :: (k ++ (".key".toList)))))) = true := by
  intro z w a k hz hhead
  have hstrip : z.dropWhile (fun c => c == '.') = z := by
    rcases z with _ | ⟨c, t⟩
    · rfl
    · refine List.dropWhile_cons_of_neg ?_
      simp only [beq_iff_eq]
      intro hc
      exact hhead (by simp [hc])
  have m0 : globMatch (".key".toList) (".key".toList) = true := by decide
  have m1 : globMatch ('*' :: (".key".toList)) (k ++ (".key".toList)) = true :=
    globMatch_star _ k _ m0
  have m2 : globMatch ('+' :: '*' :: (".key".toList)) ('+' :: (k ++ (".key".toList))) = true := by
    rw [show ('+' :: '*' :: (".key".toList)) = ['+'] ++ ('*' :: (".key".toList)) from rfl,
      show ('+' :: (k ++ (".key".toList))) = ['+'] ++ (k ++ (".key".toList)) from rfl,
      globMatch_lit ['+'] _ _ (by decide)]
    exact m1
  have m3 : globMatch ('*' :: '+' :: '*' :: (".key".toList))
      (a ++ '+' :: (k ++ (".key".toList))) = true := by
    have := globMatch_star ('+' :: '*' :: (".key".toList)) a
      ('+' :: (k ++ (".key".toList))) m2
    simpa using this
  have m4 : globMatch ("+*+*.key".toList) ('+' :: (a ++ '+' :: (k ++ (".key".toList)))) =
      true := by
    rw [show ("+*+*.key".toList) = ['+'] ++ ('*' :: '+' :: '*' :: (".key".toList)) from rfl,
      show ('+' :: (a ++ '+' :: (k ++ (".key".toList)))) =
        ['+'] ++ (a ++ '+' :: (k ++ (".key".toList))) from rfl,
      globMatch_lit ['+'] _ _ (by decide)]
    exact m3
  have m5 : globMatch (('.' :: z) ++ ("+*+*.key".toList))
      (('.' :: z) ++ ('+' :: (a ++ '+' :: (k ++ (".key".toList))))) = true := by
    rw [globMatch_lit ('.' :: z) _ _ ?_]
    · exact m4
    · intro c hc
      rcases List.mem_cons.mp hc with rfl | hc
      · exact ⟨by decide, by decide⟩
      · exact hz c hc
  have m6 : globMatch ('*' :: (('.' :: z) ++ ("+*+*.key".toList)))
      (w ++ (('.' :: z) ++ ('+' :: (a ++ '+' :: (k ++ (".key".toList)))))) = true :=
    globMatch_star _ w _ m5
  unfold keyGlobPat
  rw [if_pos rfl, hstrip]
  rw [show ('K' :: ('*' :: '.' :: z) ++ ("+*+*.key".toList)) =
    ['K'] ++ ('*' :: (('.' :: z) ++ ("+*+*.key".toList))) from rfl]
  rw [show ('K' :: (w ++ '.' :: (z ++ '+' :: (a ++ '+' :: (k ++ (".key".toList)))))) =
    ['K'] ++ (w ++ (('.' :: z) ++ ('+' :: (a ++ '+' :: (k ++ (".key".toList)))))) from rfl]
  rw [globMatch_lit ['K'] _ _ (by decide)]
  exact m6

/-- C6 witness: the recursive pattern for `example.com` matches
`Ksub.example.com+013+00042.key`. -/
theorem claim6_witness :
    globMatch (keyGlobPat ("example.com".toList) true)
      ('K' :: (("sub".toList) ++ '.' :: (("example.com".toList) ++ '+' :: (("013".toList) ++
        '+' :: (("00042".toList) ++ (".key".toList)))))) = true :=
  claim6_recursive_matches_subdomains ("example.com".toList) ("sub".toList) ("013".toList)
    ("00042".toList) (by decide) (by decide)

/-- C8 (code bug): `_call` runs the tool with `stdout=PIPE` but never
redirects stderr, so `CompletedProcess.stderr` is `None`; on a non-zero
exit the raised message interpolates that `None` — it reads
`"Error executing process: 1\nNone"` regardless of what the child wrote to
stderr, so the captured diagnostic output does NOT reach the caller. -/
theorem claim8_stderr_lost :
    (∀ (rc : Nat) (out err : List Char),
      (pyRun { returncode := rc, stdoutData := out, stderrData := err } true false).stderr =
        none) ∧
    (∀ (out err : List Char),
      callModel { returncode := 1, stdoutData := out, stderrData := err } =
        Except.error (("Error executing process: 1".toList) ++ '\n' :: ("None".toList))) ∧
    strContains (("Error executing process: 1".toList) ++ '\n' :: ("None".toList))
      ("None".toList) = true ∧
    strContains (("Error executing process: 1".toList) ++ '\n' :: ("None".toList))
      ("boom".toList) = false := by
  refine ⟨?_, ?_, by decide, by decide⟩
  · intro rc out err
    rfl
  · intro out err
    unfold callModel pyRun
    dsimp only
    rw [if_pos (by decide : (1 : Nat) ≠ 0),
      show (if false = true then some err else none : Option (List Char)) = none from rfl]
    decide

/-- C5: `list_keys` puts every matching `.key` file whose `.private` pair
is missing into the warnings (a non-fatal skip), still returns a record for
every properly paired matching file (and nothing else, up to permutation),
and the returned list is sorted ascending by the tuple
(zone, keyType, algorithm, keyId) — for directories whose matching files
follow the `K<zone>+<3-digit>+<5-digit>.key` naming convention. -/
theorem claim5_list_keys :
    ∀ (dir : List DirEntry) (zone : List Char) (res : List KeyFile) (warns : List (List Char)),
      (∀ e ∈ dir, globMatch (keyGlobPat zone false) e.fname = true → ConvName e.fname) →
      list_keys dir zone false = Except.ok (res, warns) →
      (warns = ((dir.filter (fun e => globMatch (keyGlobPat zone false) e.fname)).filter
          (fun e => !(hasFile dir (withSuffix e.fname (".private".toList))))).map
          (fun e => e.fname)) ∧
      (∀ e ∈ dir, globMatch (keyGlobPat zone false) e.fname = true →
        hasFile dir (withSuffix e.fname (".private".toList)) = true →
        ∃ kf, mkKeyFile (pyStem e.fname) e.content = Except.ok kf ∧ kf ∈ res) ∧
      (∃ recs, mapKeyFiles (iter_keyfiles dir (keyGlobPat zone false)).1 = Except.ok recs ∧
        res.Perm recs) ∧
      res.Pairwise specKeyOrder := by
  intro dir zone res warns hconv hok
  unfold list_keys at hok
  rcases hmap : mapKeyFiles (iter_keyfiles dir (keyGlobPat zone false)).1 with er | recs <;>
    rw [hmap] at hok <;> dsimp only at hok
  · simp at hok
  · have hok2 : (List.insertionSort
        (fun a b => lexLe (sort_key a) (sort_key b) = true) recs,
        (iter_keyfiles dir (keyGlobPat zone false)).2) = (res, warns) := by
      simpa using hok
    have hres : List.insertionSort
        (fun a b => lexLe (sort_key a) (sort_key b) = true) recs = res :=
      congrArg Prod.fst hok2
    have hwarns : (iter_keyfiles dir (keyGlobPat zone false)).2 = warns :=
      congrArg Prod.snd hok2
    have hperm : res.Perm recs := by
      rw [← hres]
      exact List.perm_insertionSort _ recs
    obtain ⟨hmem1, hmem2⟩ := mapKeyFiles_mem _ recs hmap
    have hbound : ∀ kf ∈ res, (∀ c ∈ kf.zone, '+' < c) ∧
        (kf.type = [] ∨ kf.type = ("ZSK".toList) ∨ kf.type = ("KSK".toList)) ∧
        kf.algo < 1000 ∧ kf.keyid < 100000 := by
      intro kf hkf
      have hkf2 : kf ∈ recs := hperm.subset hkf
      obtain ⟨e, he, hk⟩ := hmem2 kf hkf2
      have he' : e ∈ (dir.filter (fun x => globMatch (keyGlobPat zone false) x.fname)).filter
          (fun x => hasFile dir (withSuffix x.fname (".private".toList))) := he
      have he2 : e ∈ dir.filter (fun x => globMatch (keyGlobPat zone false) x.fname) :=
        List.mem_of_mem_filter he' 
      have hedir : e ∈ dir := List.mem_of_mem_filter he2
      have hematch : globMatch (keyGlobPat zone false) e.fname = true := by
        simpa using List.of_mem_filter he2
      obtain ⟨z, va, vk, hps, hz, hva, hvk⟩ := convName_parse e.fname (hconv e hedir hematch)
      obtain ⟨z', a', k', hps', hz', ha', hk'⟩ := mkKeyFile_fields _ _ _ hk
      rw [hps] at hps'
      obtain ⟨hz0, ha0, hk0⟩ : z = z' ∧ va = a' ∧ vk = k' := by simpa using hps'
      refine ⟨?_, mkKeyFile_type _ _ _ hk, by omega, by omega⟩
      rw [hz', ← hz0]
      exact hz
    refine ⟨?_, ?_, ⟨recs, rfl, hperm⟩, ?_⟩
    · rw [← hwarns]
      rfl
    · intro e he hm hp
      have he1 : e ∈ (iter_keyfiles dir (keyGlobPat zone false)).1 := by
        simp only [iter_keyfiles, List.mem_filter]
        exact ⟨⟨he, hm⟩, hp⟩
      obtain ⟨kf, h1, h2⟩ := hmem1 e he1
      exact ⟨kf, h1, hperm.mem_iff.mpr h2⟩
    · letI : IsTotal KeyFile (fun a b => lexLe (sort_key a) (sort_key b) = true) :=
        ⟨fun a b => lexLe_total (sort_key a) (sort_key b)⟩
      letI : IsTrans KeyFile (fun a b => lexLe (sort_key a) (sort_key b) = true) :=
        ⟨fun a b c => lexLe_trans (sort_key a) (sort_key b) (sort_key c)⟩
      have hsorted : List.Pairwise
          (fun a b => lexLe (sort_key a) (sort_key b) = true) res := by
        rw [← hres]
        exact List.sorted_insertionSort _ recs
      refine hsorted.imp_of_mem ?_
      intro a b ha hb hr
      obtain ⟨za, ta, aa, ka⟩ := hbound a ha
      obtain ⟨zb, tb, ab, kb⟩ := hbound b hb
      exact sortKey_le_imp_spec a b za zb ta tb aa ab ka kb hr

/-- C5 witness: on a directory with two paired keys and one unpaired
`.key` file, the unpaired name is warned about and the result is sorted. -/
theorem claim5_witness :
    ∃ res warns, list_keys exDir ("example.com".toList) false = Except.ok (res, warns) ∧
      ("Kexample.com+010+00009.key".toList) ∈ warns ∧ res.Pairwise specKeyOrder := by
  have hconv : ∀ e ∈ exDir,
      globMatch (keyGlobPat ("example.com".toList) false) e.fname = true →
      ConvName e.fname := by
    intro e he hm
    fin_cases he
    · exact ⟨("example.com".toList), ("013".toList), ("00042".toList), by decide, by decide,
        by decide, by decide, by decide, by decide⟩
    · exact absurd hm (by decide)
    · exact ⟨("example.com".toList), ("008".toList), ("00007".toList), by decide, by decide,
        by decide, by decide, by decide, by decide⟩
    · exact absurd hm (by decide)
    · exact ⟨("example.com".toList), ("010".toList), ("00009".toList), by decide, by decide,
        by decide, by decide, by decide, by decide⟩
  rcases hk : list_keys exDir ("example.com".toList) false with er | ⟨res, warns⟩
  · cases er <;> exact absurd hk (by decide)
  · obtain ⟨hw, -, -, hpair⟩ :=
      claim5_list_keys exDir ("example.com".toList) res warns hconv hk
    refine ⟨res, warns, rfl, ?_, hpair⟩
    rw [hw]
    decide

/-- C7 witness: a key file with no descriptive comment line constructs
successfully with an empty keyType. -/
theorem claim7_witness :
    ∃ kf, mkKeyFile ("Kexample.com+013+00042".toList) [] = Except.ok kf ∧ kf.type = [] := by
  rcases hk : mkKeyFile ("Kexample.com+013+00042".toList) [] with er | kf
  · cases er <;> exact absurd hk (by decide)
  · exact ⟨kf, rfl, (claim7_keytype.1 _ [] kf hk).2 (by simp)⟩

end Dnskeytool
